import Mathlib

/-!
Verification of the version-selection, formatting and validation core of the
`docker-images` repository (TypeScript sources under `src/`).

The embedding is shallow:

* Semantic versions are modelled as parsed `major.minor.patch` triples
  (`SemVer`).  The repository delegates semver parsing/comparison to the
  external `semver` npm package (the spec declares semver parsing an external
  solved capability); `parseSemver` models `semver.clean`/`semver.parse` on
  the version strings that occur in this pipeline: optional surrounding
  whitespace, an optional run of leading `v`/`=` characters, then three
  dot-separated decimal numerals without leading zeros.
* JavaScript `Map` objects are modelled as insertion-ordered association
  lists; `Map.prototype.values()` returns values in key-insertion order.
* Throwing code is modelled with `Except JsError`; each `JsError`
  constructor corresponds to one `Error` message of the source (recorded in
  the constructor doc comments).
* The regular-expression tests of the validators are modelled by executable
  character-level matchers over `List Char`.
-/

namespace DockerImages

/-- A parsed semantic version, `major.minor.patch`. -/
structure SemVer where
  major : Nat
  minor : Nat
  patch : Nat
deriving Repr, DecidableEq

/-- Strict semver order (lexicographic on major, minor, patch),
modelling `semver.lt`/`semver.compare` returning `-1`. -/
def svLtB (a b : SemVer) : Bool :=
  decide (a.major < b.major ∨ (a.major = b.major ∧
    (a.minor < b.minor ∨ (a.minor = b.minor ∧ a.patch < b.patch))))

/-- Non-strict semver order, modelling `semver.lte`. -/
def svLeB (a b : SemVer) : Bool :=
  decide (a.major < b.major ∨ (a.major = b.major ∧
    (a.minor < b.minor ∨ (a.minor = b.minor ∧ a.patch ≤ b.patch))))

/-- `c` is a decimal digit. -/
def isDigitChar (c : Char) : Bool := '0' ≤ c && c ≤ '9'

/-- A non-empty all-digit character run (the regex `\d+`). -/
def digits1 (cs : List Char) : Bool := !cs.isEmpty && cs.all isDigitChar

/-- Value of a decimal digit run. -/
def digitsToNat (cs : List Char) : Nat :=
  cs.foldl (fun n c => 10 * n + (c.toNat - '0'.toNat)) 0

/-- A numeric semver identifier: non-empty digits with no leading zero
(`0` itself allowed), as accepted by the `semver` package. -/
def parseNumId (cs : List Char) : Option Nat :=
  if digits1 cs && !(cs.length > 1 && cs.head? == some '0') then
    some (digitsToNat cs)
  else
    none

/-- ASCII whitespace, as trimmed by `String.prototype.trim`. -/
def isWsChar (c : Char) : Bool := c == ' ' || c == '\t' || c == '\n' || c == '\r'

/-- `String.prototype.trim` at the character level. -/
def trimChars (cs : List Char) : List Char :=
  ((cs.dropWhile isWsChar).reverse.dropWhile isWsChar).reverse

/-- Model of `semver.parse` / `semver.clean` on this pipeline's inputs:
trim whitespace, drop a leading run of `v` / `=` characters, then require
exactly `major.minor.patch` with numeric identifiers.  Returns `none` where
the library reports an invalid version. -/
def parseSemver (s : String) : Option SemVer :=
  let cs := (trimChars s.toList).dropWhile (fun c => c == 'v' || c == '=')
  match cs.splitOn '.' with
  | [a, b, c] =>
    match parseNumId a, parseNumId b, parseNumId c with
    | some x, some y, some z => some ⟨x, y, z⟩
    | _, _, _ => none
  | _ => none

/-- The canonical string of a parsed version, as returned by `semver.clean`. -/
def SemVer.render (v : SemVer) : String :=
  toString v.major ++ "." ++ toString v.minor ++ "." ++ toString v.patch

/-- `semver.clean`: the cleaned version string, or `none` for invalid input. -/
def semverClean (s : String) : Option String := (parseSemver s).map SemVer.render

/-- `semver.compare`-induced order on version strings; defined on records
whose version parses (every call site of `semver.sort` in the source has
already established this, the library throws otherwise), extended to a total
order by treating unparseable strings as minimal. -/
def versionStrLeB (a b : String) : Bool :=
  match parseSemver a, parseSemver b with
  | some x, some y => svLeB x y
  | none, _ => true
  | some _, none => false

/-- The order of `semver.sort` as a relation.  JavaScript sorts are stable,
so a stable sort (`List.insertionSort`) is an extensionally exact model. -/
def VerLe (a b : String) : Prop := versionStrLeB a b = true

instance : DecidableRel VerLe := fun a b => instDecidableEqBool (versionStrLeB a b) true

/-! ### Character-level models of the validator regular expressions -/

/-- Consume an expected literal character sequence from the front. -/
def chompLit : List Char → List Char → Option (List Char)
  | [], cs => some cs
  | p :: ps, c :: cs => if c == p then chompLit ps cs else none
  | _ :: _, [] => none

/-- Consume one or more decimal digits, greedily (the regex `\d+`). -/
def chompDigits : List Char → Option (List Char)
  | c :: cs => if isDigitChar c then some (cs.dropWhile isDigitChar) else none
  | [] => none

/-- Consume `\d+\.\d+\.\d+` anchored at the front. -/
def chompVersionTriple (cs : List Char) : Option (List Char) :=
  ((((chompDigits cs).bind (chompLit ['.'])).bind chompDigits).bind
    (chompLit ['.'])).bind chompDigits

/-- The regex `/^\d+\.\d+\.\d+$/` of both validators. -/
def matchesVersionRegex (s : String) : Bool := chompVersionTriple s.toList == some []

/-- The regex `/^\d+$/` (`imageVersionRegex` of the Node validator). -/
def matchesNumRegex (s : String) : Bool := digits1 s.toList

def isUpperChar (c : Char) : Bool := 'A' ≤ c && c ≤ 'Z'

def isLowerChar (c : Char) : Bool := 'a' ≤ c && c ≤ 'z'

/-- The regex `/^[a-z]+$/` (`imageCodeNameRegex` of the Node validator). -/
def matchesLowerRegex (s : String) : Bool :=
  !s.toList.isEmpty && s.toList.all isLowerChar

/-- Consume `[A-Z][a-z]+` anchored at the front. -/
def chompCodename : List Char → Option (List Char)
  | c :: cs =>
    if isUpperChar c then
      match cs with
      | d :: ds => if isLowerChar d then some (ds.dropWhile isLowerChar) else none
      | [] => none
    else none
  | [] => none

/-- The regex `/^Node \d+\.\d+\.\d+ LTS \([A-Z][a-z]+\)$/` of the Node validator. -/
def matchesNodeImageNameRegex (s : String) : Bool :=
  ((((chompLit "Node ".toList s.toList).bind chompVersionTriple).bind
    (chompLit " LTS (".toList)).bind chompCodename).bind (chompLit [')']) == some []

/-- The regex `/^Jekyll \d+\.\d+\.\d+$/` of the Jekyll validator. -/
def matchesJekyllImageNameRegex (s : String) : Bool :=
  ((chompLit "Jekyll ".toList s.toList).bind chompVersionTriple) == some []

/-- The capture of `/\(([^)]+)\)$/` run against `image-name`: the string must
end in `)`, and the group is everything after the first `(` that is not
followed by another `)` before the final one (leftmost regex match). -/
def extractParenCodename (s : String) : Option String :=
  let cs := s.toList
  if cs.getLast? == some ')' then
    let body := cs.dropLast
    let suffix := (body.reverse.takeWhile (fun c => c ≠ ')')).reverse
    match suffix.dropWhile (fun c => c ≠ '(') with
    | '(' :: tail => if tail.isEmpty then none else some (String.mk tail)
    | _ => none
  else none

/-- `String.prototype.toLowerCase` on the ASCII strings of this pipeline. -/
def strToLower (s : String) : String := String.mk (s.toList.map Char.toLower)

/-! ### Data model -/

/-- A JavaScript value stored in an `is-latest` field.  The TypeScript type
says `boolean`, but the test suite deliberately smuggles strings through
casts and the validators check `typeof === 'boolean'` at runtime. -/
inductive JsBool where
  | bool (b : Bool)
  | str (s : String)
deriving Repr, DecidableEq

/-- `typeof x === 'boolean'`. -/
def JsBool.isBoolean : JsBool → Bool
  | .bool _ => true
  | .str _ => false

/-- JavaScript truthiness of such a value. -/
def JsBool.truthy : JsBool → Bool
  | .bool b => b
  | .str s => decide (s ≠ "")

/-- `WorkflowContextRegularVersion` (src/src/types): a formatted regular
entry.  `image-code-name` is an optional property (`none` = absent). -/
structure RegularVersion where
  version : String
  imageVersion : String
  imageName : String
  imageCodeName : Option String
  isLatest : JsBool
deriving Repr, DecidableEq

/-- `WorkflowContextLatestVersion`: its `version` field is fixed to the
literal `'latest'` by its type and is therefore left implicit here. -/
structure LatestVersion where
  imageVersion : String
  isLatest : JsBool
deriving Repr, DecidableEq

/-- `WorkflowContextVersion`, the union of the two shapes above. -/
inductive WorkflowVersion where
  | regular (v : RegularVersion)
  | latest (v : LatestVersion)
deriving Repr, DecidableEq

/-- The `version` property of a `WorkflowContextVersion`. -/
def WorkflowVersion.versionField : WorkflowVersion → String
  | .regular v => v.version
  | .latest _ => "latest"

/-- The `image-version` property of a `WorkflowContextVersion`. -/
def WorkflowVersion.imageVersionField : WorkflowVersion → String
  | .regular v => v.imageVersion
  | .latest v => v.imageVersion

/-- The `is-latest` property of a `WorkflowContextVersion`. -/
def WorkflowVersion.isLatestField : WorkflowVersion → JsBool
  | .regular v => v.isLatest
  | .latest v => v.isLatest

/-- One record of the Node.js distribution index (the `NodeVersion` type).
The `lts` field is JavaScript `false` (here `none`) or a codename string
(here `some`); the remaining index fields are irrelevant to the logic and
represented by `date` only. -/
structure NodeVersion where
  version : String
  lts : Option String
  date : String := ""
deriving Repr, DecidableEq

/-- The `NodeVersionSchedule` entry for one major line.  `ltsStart` models
the optional JSON field `lts` (start of the LTS window) and `endDate` the
field `end`; dates are timestamps, as compared by JavaScript `Date`. -/
structure NodeVersionSchedule where
  ltsStart : Option Int
  endDate : Option Int
deriving Repr, DecidableEq

/-- `NodeVersionScheduleData`, the schedule JSON object: the entry stored
under the key `v{major}`, if any. -/
def ScheduleData := Nat → Option NodeVersionSchedule

/-! ### Errors

Each constructor corresponds to one `throw new Error(...)` (or a `TypeError`
raised inside the `semver` package) of the source, with the message recorded
in the doc comment; constructors carry the data interpolated into the
message. -/

inductive JsError where
  /-- A `TypeError` thrown by the `semver` package when it is handed
  `null`/`undefined` or an invalid version where one is not allowed. -/
  | typeError
  /-- `Invalid version: {version}` (`NodeVersionFetcher.getVersion`). -/
  | invalidVersion (version : String)
  /-- `Version {version} is not a valid Node.js LTS version.` -/
  | notValidLts (version : String)
  /-- `Invalid regular version object for version: {version}`
  (`NodeVersionFetcher.getVersion`). -/
  | invalidRegularForVersion (version : String)
  /-- `Versions array must contain at least two elements.` -/
  | tooShort
  /-- `Invalid regular version object: {JSON.stringify(version)}` — carries
  the offending entry. -/
  | invalidRegular (v : RegularVersion)
  /-- `Missing latest version object.` -/
  | missingLatest
  /-- `Versions array must contain only one latest version object.` -/
  | multipleLatest
  /-- `Invalid latest version object: {JSON.stringify(latestVersion)}`. -/
  | invalidLatest (v : WorkflowVersion)
  /-- A `TypeError` thrown by `semver.sort` on an unparseable version. -/
  | semverSortInvalid
  /-- `Regular versions are not sorted ascending by version number.` -/
  | notSorted
  /-- `The last regular version must have is-latest: true.` -/
  | lastRegularNotLatest
  /-- `Latest version object must be last in the array.` -/
  | latestNotLast
deriving Repr, DecidableEq

/-! ### Validators -/

/-- The regular entries of a versions array: the elements whose `version`
is not the literal `'latest'` (the filter at the top of
`AbstractVersionValidator.validateVersions` and the type-guard filter in
`NodeVersionFetcher.getNewerEolVersions`). -/
def regularEntries (versions : List WorkflowVersion) : List RegularVersion :=
  versions.filterMap fun v =>
    match v with
    | .regular r => if r.version == "latest" then none else some r
    | .latest _ => none

/-- The entries of a versions array whose `version` is `'latest'`. -/
def latestEntries (versions : List WorkflowVersion) : List WorkflowVersion :=
  versions.filter fun v => v.versionField == "latest"

/-- `NodeVersionValidator.isValidRegularVersion`: per-field shape checks of
a regular Node entry plus the cross-field codename check.  An absent
`image-code-name` is coerced by `RegExp.test` to the string `"undefined"`
(JavaScript string coercion of `undefined`), which is what `getD
"undefined"` models. -/
def nodeIsValidRegularVersion (version : RegularVersion) : Bool :=
  let codeNameMatches := extractParenCodename version.imageName
  let isValidCodeName :=
    match codeNameMatches with
    | some cap => version.imageCodeName == some (strToLower cap)
    | none => false
  matchesVersionRegex version.version &&
  matchesNumRegex version.imageVersion &&
  matchesNodeImageNameRegex version.imageName &&
  matchesLowerRegex (version.imageCodeName.getD "undefined") &&
  version.isLatest.isBoolean &&
  isValidCodeName

/-- `JekyllVersionValidator.isValidRegularVersion`: the `image-version`
field is tested against the same full `\d+\.\d+\.\d+` regex as `version`. -/
def jekyllIsValidRegularVersion (version : RegularVersion) : Bool :=
  matchesVersionRegex version.version &&
  matchesVersionRegex version.imageVersion &&
  matchesJekyllImageNameRegex version.imageName &&
  version.isLatest.isBoolean

/-- `AbstractVersionValidator.validateVersions`, parameterised by the
subclass's `isValidRegularVersion`.  Checks run in source order and the
first violation produces its error. -/
def validateVersions (isValid : RegularVersion → Bool)
    (versions : List WorkflowVersion) : Except JsError Unit :=
  if versions.length < 2 then .error .tooShort
  else
    let regularVersions := regularEntries versions
    match regularVersions.find? (fun r => !isValid r) with
    | some r => .error (.invalidRegular r)
    | none =>
      let latestVersions := latestEntries versions
      if latestVersions.length == 0 then .error .missingLatest
      else if latestVersions.length > 1 then .error .multipleLatest
      else
        match latestVersions.head? with
        | none => .error .missingLatest
        | some l =>
          if !(l.imageVersionField == "latest") || !l.isLatestField.truthy then
            .error (.invalidLatest l)
          else
            let nums := regularVersions.map (·.version)
            if !(nums.all fun s => (parseSemver s).isSome) then .error .semverSortInvalid
            else if nums ≠ List.insertionSort VerLe nums then .error .notSorted
            else if !(match regularVersions.getLast? with
                      | some r => r.isLatest.truthy
                      | none => false) then .error .lastRegularNotLatest
            else if (versions.getLast?.map WorkflowVersion.versionField) == some "latest" then
              .ok ()
            else .error .latestNotLast

/-! ### NodeVersionFetcher

The fetcher's methods, as pure functions of the already-fetched inputs: the
distribution index (`versionData`), the release schedule (`scheduleData` and
the current time `now`), and the published image versions from the registry
(`imageVersions`). -/

/-- `getLtsVersions`: the records whose `lts` designator is not `false`. -/
def getLtsVersions (versionData : List NodeVersion) : List NodeVersion :=
  versionData.filter fun version => version.lts.isSome

/-- The predicate of `getActiveLtsVersions`: the record's major line has a
schedule entry with both dates present and `now` inside `[ltsStart, end)`;
an unparseable version, a missing entry or a missing date yields `false`. -/
def isActiveLtsVersion (scheduleData : ScheduleData) (now : Int)
    (ltsVersion : NodeVersion) : Bool :=
  match parseSemver ltsVersion.version with
  | none => false
  | some sv =>
    match scheduleData sv.major with
    | some versionSchedule =>
      match versionSchedule.ltsStart, versionSchedule.endDate with
      | some ltsStart, some endDate => decide (ltsStart ≤ now) && decide (now < endDate)
      | _, _ => false
    | none => false

/-- `getActiveLtsVersions`: the LTS records whose line is currently active. -/
def getActiveLtsVersions (scheduleData : ScheduleData) (now : Int)
    (versionData : List NodeVersion) : List NodeVersion :=
  (getLtsVersions versionData).filter (isActiveLtsVersion scheduleData now)

/-- The `Map<number, NodeVersion>` of the source, as an insertion-ordered
association list; alongside each stored record we keep its parsed version
(the source re-derives it with `semver.clean(storedVersion.version)!`,
which never fails because only cleanable records are inserted). -/
abbrev VMap := List (Nat × SemVer × NodeVersion)

/-- `Map.prototype.get`. -/
def mapGet (m : VMap) (k : Nat) : Option (SemVer × NodeVersion) :=
  (m.find? fun e => e.1 == k).map fun e => e.2

/-- `Map.prototype.set`: updates in place an existing key, else appends
(JavaScript maps preserve key-insertion order). -/
def mapSet (m : VMap) (k : Nat) (v : SemVer × NodeVersion) : VMap :=
  if m.any (fun e => e.1 == k) then
    m.map fun e => if e.1 == k then (k, v) else e
  else m ++ [(k, v)]

/-- The loop body shared by `getLatestVersionsByMajor` and the merge loop of
`getEligibleVersions` (the source duplicates this code verbatim): skip
records whose version does not clean, and store a record under its major
unless a version at least as high is already stored. -/
def latestByMajorStep (m : VMap) (version : NodeVersion) : VMap :=
  match parseSemver version.version with
  | none => m
  | some sv =>
    match mapGet m sv.major with
    | some (storedSv, _) => if svLeB sv storedSv then m else mapSet m sv.major (sv, version)
    | none => mapSet m sv.major (sv, version)

/-- `getLatestVersionsByMajor`: one record per major, the highest version
(first such record on ties), in key-insertion order. -/
def getLatestVersionsByMajor (versions : List NodeVersion) : List NodeVersion :=
  (versions.foldl latestByMajorStep []).map fun e => e.2.2

/-- The comparator `(a, b) => semver.compare(a.version, b.version)` of
`getEligibleVersions` as a sort order on records. -/
def nodeVersionLeB (a b : NodeVersion) : Bool := versionStrLeB a.version b.version

/-- The record sort order as a relation. -/
def NodeLe (a b : NodeVersion) : Prop := nodeVersionLeB a b = true

instance : DecidableRel NodeLe := fun a b => instDecidableEqBool (nodeVersionLeB a b) true

/-- `getEligibleVersions`, as a function of the two awaited sub-results:
reduce the active LTS versions to one per major, merge with the newer EOL
versions keeping the strictly higher version per major, sort ascending. -/
def getEligibleVersions (activeLts newerEol : List NodeVersion) : List NodeVersion :=
  let activeLtsVersions := getLatestVersionsByMajor activeLts
  let merged := ((activeLtsVersions ++ newerEol).foldl latestByMajorStep []).map fun e => e.2.2
  List.insertionSort NodeLe merged

/-- `getMajorVersions`: the majors of the cleanable records (the source
collects them into a `Set`, used only through `has`, so a list queried with
`contains` is an equivalent model). -/
def getMajorVersions (versions : List NodeVersion) : List Nat :=
  versions.filterMap fun version => (parseSemver version.version).map (·.major)

/-- `getVersionsByMajorVersion`: the records of one major line. -/
def getVersionsByMajorVersion (versions : List NodeVersion) (majorVersion : Nat) :
    List NodeVersion :=
  versions.filter fun version =>
    match parseSemver version.version with
    | some sv => sv.major == majorVersion
    | none => false

/-- One iteration of the `forEach` in `getNewerEolVersions`, for a published
registry tag: `semver.major` on the tag throws on an unparseable version;
an active-LTS major is skipped; the highest record of that major in the
universe is the candidate, skipped when absent, unparseable, or not
strictly greater than the published tag. -/
def newerEolCandidate (allVersions : List NodeVersion) (activeLtsMajorVersions : List Nat)
    (nodeImageVersion : RegularVersion) : Except JsError (Option NodeVersion) :=
  match parseSemver nodeImageVersion.version with
  | none => .error .typeError
  | some tagSv =>
    if activeLtsMajorVersions.contains tagSv.major then .ok none
    else
      match (getLatestVersionsByMajor (getVersionsByMajorVersion allVersions tagSv.major)).head? with
      | none => .ok none
      | some newerEolVersion =>
        match parseSemver newerEolVersion.version with
        | none => .ok none
        | some eolSv => if svLeB eolSv tagSv then .ok none else .ok (some newerEolVersion)

/-- The `forEach` of `getNewerEolVersions` over all published tags,
collecting the pushed candidates in order. -/
def newerEolLoop (allVersions : List NodeVersion) (activeLtsMajorVersions : List Nat) :
    List RegularVersion → Except JsError (List NodeVersion)
  | [] => .ok []
  | tag :: rest =>
    match newerEolCandidate allVersions activeLtsMajorVersions tag with
    | .error e => .error e
    | .ok o =>
      match newerEolLoop allVersions activeLtsMajorVersions rest with
      | .error e => .error e
      | .ok l => .ok (o.toList ++ l)

/-- `getNewerEolVersions`, as a function of the version universe, the active
LTS versions, and the published image versions (the sentinel is filtered
out of the latter exactly as in the source). -/
def getNewerEolVersions (allVersions activeLtsVersions : List NodeVersion)
    (imageVersions : List WorkflowVersion) : Except JsError (List NodeVersion) :=
  newerEolLoop allVersions (getMajorVersions activeLtsVersions) (regularEntries imageVersions)

/-- The `find` in `getVersion`: the first LTS record whose cleaned version
equals the query; `semver.eq(semver.clean(v)!, …)` throws a `TypeError`
when a record inspected before a match is found has an unparseable
version. -/
def findLtsVersion (cleanVersion : SemVer) :
    List NodeVersion → Except JsError (Option NodeVersion)
  | [] => .ok none
  | ltsVersion :: rest =>
    match parseSemver ltsVersion.version with
    | none => .error .typeError
    | some sv =>
      if sv == cleanVersion then .ok (some ltsVersion) else findLtsVersion cleanVersion rest

/-- `NodeVersionFetcher.getVersion`: clean the query, look it up among the
LTS versions, and return the formatted entry, with `is-latest` comparing
against the highest LTS version (`semver.sort(...).at(-1)`). -/
def getVersion (versionData : List NodeVersion) (version : String) :
    Except JsError RegularVersion :=
  match parseSemver version with
  | none => .error (.invalidVersion version)
  | some cv =>
    let cleanVersion := cv.render
    let ltsVersions := getLtsVersions versionData
    match findLtsVersion cv ltsVersions with
    | .error e => .error e
    | .ok none => .error (.notValidLts version)
    | .ok (some ltsVersion) =>
      if ltsVersions.all (fun v => (parseSemver v.version).isSome) then
        match (List.insertionSort VerLe (ltsVersions.map (·.version))).getLast? with
        | none => .error .typeError
        | some latestLtsVersion =>
          match parseSemver latestLtsVersion, ltsVersion.lts with
          | some latestSv, some codename =>
            let regularVersion : RegularVersion :=
              { version := cleanVersion
                imageVersion := toString cv.major
                imageName := "Node " ++ cleanVersion ++ " LTS (" ++ codename ++ ")"
                imageCodeName := some (strToLower codename)
                isLatest := .bool (cv == latestSv) }
            if nodeIsValidRegularVersion regularVersion then .ok regularVersion
            else .error (.invalidRegularForVersion version)
          | _, _ => .error .typeError
      else .error .typeError

/-- The fixed sentinel of `addLatestVersionObject`. -/
def latestVersionObject : LatestVersion :=
  { imageVersion := "latest", isLatest := .bool true }

/-- `AbstractVersionFetcher.addLatestVersionObject`: append the sentinel
unconditionally after all regular entries. -/
def addLatestVersionObject (regularVersions : List RegularVersion) : List WorkflowVersion :=
  regularVersions.map WorkflowVersion.regular ++ [WorkflowVersion.latest latestVersionObject]

/-- The per-record formatting step of `getVersions`: `semver.clean(...)!`
followed by `semver.major`/`semver.eq` throws on an unparseable record or a
missing overall latest version, and `(version.lts as string).toLowerCase()`
throws when `lts` is not a string. -/
def formatRegularVersion (latestVersion : Option String) (version : NodeVersion) :
    Except JsError RegularVersion :=
  match parseSemver version.version with
  | none => .error .typeError
  | some sv =>
    match latestVersion with
    | none => .error .typeError
    | some lv =>
      match parseSemver lv, version.lts with
      | some lsv, some codename =>
        .ok { version := sv.render
              imageVersion := toString sv.major
              imageName := "Node " ++ sv.render ++ " LTS (" ++ codename ++ ")"
              imageCodeName := some (strToLower codename)
              isLatest := .bool (sv == lsv) }
      | _, _ => .error .typeError

/-- The formatting stage of `getVersions`: compute the overall latest
eligible version (`semver.sort(...).at(-1)`, which throws on an unparseable
record), format every eligible record, and append the sentinel. -/
def formatEligibleVersions (eligibleVersions : List NodeVersion) :
    Except JsError (List WorkflowVersion) :=
  if eligibleVersions.all (fun v => (parseSemver v.version).isSome) then
    let latestVersion := (List.insertionSort VerLe (eligibleVersions.map (·.version))).getLast?
    match eligibleVersions.mapM (formatRegularVersion latestVersion) with
    | .error e => .error e
    | .ok regularVersions => .ok (addLatestVersionObject regularVersions)
  else .error .typeError

/-- `NodeVersionFetcher.getVersions` from the eligible set onwards: format,
append the sentinel, validate with the Node validator, and return the list. -/
def getVersionsFromEligible (eligibleVersions : List NodeVersion) :
    Except JsError (List WorkflowVersion) :=
  match formatEligibleVersions eligibleVersions with
  | .error e => .error e
  | .ok versions =>
    match validateVersions nodeIsValidRegularVersion versions with
    | .error e => .error e
    | .ok _ => .ok versions

/-! ### Order lemmas for the semver comparators -/

theorem svLeB_refl (a : SemVer) : svLeB a a = true := by
  simp [svLeB]

theorem svLeB_total (a b : SemVer) : svLeB a b = true ∨ svLeB b a = true := by
  simp only [svLeB, decide_eq_true_eq]
  omega

theorem svLeB_trans {a b c : SemVer} (h₁ : svLeB a b = true) (h₂ : svLeB b c = true) :
    svLeB a c = true := by
  simp only [svLeB, decide_eq_true_eq] at *
  omega

theorem svLeB_antisymm {a b : SemVer} (h₁ : svLeB a b = true) (h₂ : svLeB b a = true) :
    a = b := by
  cases a; cases b
  simp only [svLeB, decide_eq_true_eq, SemVer.mk.injEq] at *
  omega

theorem verLe_total (a b : String) : VerLe a b ∨ VerLe b a := by
  unfold VerLe versionStrLeB
  cases parseSemver a <;> cases parseSemver b <;> simp [svLeB_total]

theorem verLe_trans {a b c : String} (h₁ : VerLe a b) (h₂ : VerLe b c) : VerLe a c := by
  unfold VerLe versionStrLeB at *
  cases ha : parseSemver a <;> cases hb : parseSemver b <;> cases hc : parseSemver c <;>
    simp_all
  exact svLeB_trans h₁ h₂

instance : IsTotal String VerLe := ⟨verLe_total⟩

instance : IsTrans String VerLe := ⟨fun _ _ _ => verLe_trans⟩

theorem nodeLe_total (a b : NodeVersion) : NodeLe a b ∨ NodeLe b a :=
  verLe_total a.version b.version

theorem nodeLe_trans {a b c : NodeVersion} (h₁ : NodeLe a b) (h₂ : NodeLe b c) :
    NodeLe a c := verLe_trans h₁ h₂

instance : IsTotal NodeVersion NodeLe := ⟨nodeLe_total⟩

instance : IsTrans NodeVersion NodeLe := ⟨fun _ _ _ => nodeLe_trans⟩

/-! ### Characterisation of the regex matchers

The executable matchers transcribe the validator regexes; the following
shape predicates state the same languages declaratively, and the lemmas
prove the two views equivalent. -/

/-- The list does not begin with a character satisfying `p`. -/
def HeadNot (p : Char → Bool) (r : List Char) : Prop :=
  ∀ c, r.head? = some c → p c = false

theorem headNot_nil (p : Char → Bool) : HeadNot p [] := by
  intro c hc
  simp at hc

theorem headNot_cons {p : Char → Bool} {c : Char} (h : p c = false) (r : List Char) :
    HeadNot p (c :: r) := by
  intro d hd
  simp at hd
  rwa [← hd]

theorem dropWhile_append_of_all {p : Char → Bool} {a : List Char}
    (h : ∀ c ∈ a, p c = true) (b : List Char) :
    (a ++ b).dropWhile p = b.dropWhile p := by
  induction a with
  | nil => rfl
  | cons x xs ih =>
    rw [List.cons_append, List.dropWhile_cons, if_pos (h x (List.mem_cons_self x xs))]
    exact ih fun c hc => h c (List.mem_cons_of_mem x hc)

theorem dropWhile_of_headNot {p : Char → Bool} {b : List Char} (h : HeadNot p b) :
    b.dropWhile p = b := by
  cases b with
  | nil => rfl
  | cons x xs => rw [List.dropWhile_cons, if_neg (by simp [h x rfl])]

theorem takeWhile_of_all {p : Char → Bool} {a : List Char} (h : ∀ c ∈ a, p c = true) :
    a.takeWhile p = a := by
  induction a with
  | nil => rfl
  | cons x xs ih =>
    rw [List.takeWhile_cons, if_pos (h x (List.mem_cons_self x xs))]
    rw [ih fun c hc => h c (List.mem_cons_of_mem x hc)]

theorem chompLit_eq_some {lit cs r : List Char} :
    chompLit lit cs = some r ↔ cs = lit ++ r := by
  induction lit generalizing cs with
  | nil => simp [chompLit]
  | cons p ps ih =>
    cases cs with
    | nil => simp [chompLit]
    | cons c cs' =>
      by_cases hc : c = p
      · subst hc
        simp [chompLit, ih]
      · simp [chompLit, hc]

theorem chompDigits_eq_some {cs r : List Char} :
    chompDigits cs = some r ↔
      ∃ a, digits1 a = true ∧ cs = a ++ r ∧ HeadNot isDigitChar r := by
  constructor
  · intro h
    cases cs with
    | nil => exact absurd h (by simp [chompDigits])
    | cons c cs' =>
      simp only [chompDigits] at h
      by_cases hd : isDigitChar c = true
      · rw [if_pos hd] at h
        refine ⟨c :: cs'.takeWhile isDigitChar, ?_, ?_, ?_⟩
        · simp only [digits1, List.isEmpty_cons, Bool.not_false, List.all_cons, hd,
            Bool.true_and]
          exact List.all_eq_true.mpr fun x hx => List.mem_takeWhile_imp hx
        · have := List.takeWhile_append_dropWhile isDigitChar cs'
          simp only [Option.some.injEq] at h
          rw [← h, List.cons_append, this]
        · intro x hx
          simp only [Option.some.injEq] at h
          rw [← h] at hx
          have := List.head?_dropWhile_not isDigitChar cs'
          rw [hx] at this
          exact this
      · rw [if_neg hd] at h
        exact absurd h (by simp)
  · rintro ⟨a, ha, rfl, hr⟩
    cases a with
    | nil => simp [digits1] at ha
    | cons d a' =>
      simp only [digits1, List.isEmpty_cons, Bool.not_false, List.all_cons,
        Bool.true_and, Bool.and_eq_true, List.all_eq_true] at ha
      rw [List.cons_append]
      simp only [chompDigits]
      rw [if_pos ha.1, dropWhile_append_of_all ha.2, dropWhile_of_headNot hr]

/-- The language of `\d+\.\d+\.\d+`. -/
def VersionTripleShape (cs : List Char) : Prop :=
  ∃ a b c, digits1 a = true ∧ digits1 b = true ∧ digits1 c = true ∧
    cs = a ++ '.' :: b ++ '.' :: c

theorem chompVersionTriple_eq_some {cs r : List Char} :
    chompVersionTriple cs = some r ↔
      ∃ v, VersionTripleShape v ∧ cs = v ++ r ∧ HeadNot isDigitChar r := by
  constructor
  · intro h
    unfold chompVersionTriple at h
    obtain ⟨r4, g4, g5⟩ := Option.bind_eq_some.mp h
    obtain ⟨r3, g3, g4'⟩ := Option.bind_eq_some.mp g4
    obtain ⟨r2, g2, g3'⟩ := Option.bind_eq_some.mp g3
    obtain ⟨r1, g1, g2'⟩ := Option.bind_eq_some.mp g2
    obtain ⟨a, ha, rfl, -⟩ := chompDigits_eq_some.mp g1
    rw [chompLit_eq_some] at g2'
    subst g2'
    obtain ⟨b, hb, rfl, -⟩ := chompDigits_eq_some.mp g3'
    rw [chompLit_eq_some] at g4'
    subst g4'
    obtain ⟨c, hc, rfl, hr⟩ := chompDigits_eq_some.mp g5
    refine ⟨a ++ '.' :: b ++ '.' :: c, ⟨a, b, c, ha, hb, hc, rfl⟩, by simp, hr⟩
  · rintro ⟨v, ⟨a, b, c, ha, hb, hc, rfl⟩, rfl, hr⟩
    unfold chompVersionTriple
    have h1 : chompDigits ((a ++ '.' :: b ++ '.' :: c) ++ r) =
        some ('.' :: b ++ '.' :: (c ++ r)) := by
      rw [chompDigits_eq_some]
      exact ⟨a, ha, by simp, headNot_cons (by rfl) _⟩
    rw [h1]
    have h2 : chompLit ['.'] ('.' :: b ++ '.' :: (c ++ r)) = some (b ++ '.' :: (c ++ r)) := by
      rw [chompLit_eq_some]
      rfl
    rw [Option.some_bind, h2]
    have h3 : chompDigits (b ++ '.' :: (c ++ r)) = some ('.' :: (c ++ r)) := by
      rw [chompDigits_eq_some]
      exact ⟨b, hb, rfl, headNot_cons (by rfl) _⟩
    rw [Option.some_bind, h3]
    have h4 : chompLit ['.'] ('.' :: (c ++ r)) = some (c ++ r) := by
      rw [chompLit_eq_some]
      rfl
    rw [Option.some_bind, h4, Option.some_bind]
    rw [chompDigits_eq_some]
    exact ⟨c, hc, rfl, hr⟩

theorem matchesVersionRegex_iff {s : String} :
    matchesVersionRegex s = true ↔ VersionTripleShape s.toList := by
  unfold matchesVersionRegex
  rw [beq_iff_eq, chompVersionTriple_eq_some]
  constructor
  · rintro ⟨v, hv, hcs, -⟩
    rw [List.append_nil] at hcs
    rwa [hcs]
  · intro hv
    exact ⟨s.toList, hv, (List.append_nil _).symm, headNot_nil _⟩

theorem mem_dot_of_versionTripleShape {cs : List Char} (h : VersionTripleShape cs) :
    '.' ∈ cs := by
  obtain ⟨a, b, c, -, -, -, rfl⟩ := h
  simp

/-- The language of `[A-Z][a-z]+`: an uppercase letter followed by one or
more lowercase letters. -/
def CodenameShape (cs : List Char) : Prop :=
  ∃ u rest, isUpperChar u = true ∧ rest ≠ [] ∧ (∀ c ∈ rest, isLowerChar c = true) ∧
    cs = u :: rest

theorem chompCodename_eq_some {cs r : List Char} :
    chompCodename cs = some r ↔
      ∃ code, CodenameShape code ∧ cs = code ++ r ∧ HeadNot isLowerChar r := by
  constructor
  · intro h
    match cs with
    | [] => exact absurd h (by simp [chompCodename])
    | [u] =>
      simp only [chompCodename] at h
      by_cases hu : isUpperChar u = true
      · rw [if_pos hu] at h
        exact absurd h (by simp)
      · rw [if_neg hu] at h
        exact absurd h (by simp)
    | u :: d :: ds =>
      simp only [chompCodename] at h
      by_cases hu : isUpperChar u = true
      · rw [if_pos hu] at h
        by_cases hd : isLowerChar d = true
        · rw [if_pos hd] at h
          simp only [Option.some.injEq] at h
          refine ⟨u :: d :: ds.takeWhile isLowerChar,
            ⟨u, d :: ds.takeWhile isLowerChar, hu, by simp, ?_, rfl⟩, ?_, ?_⟩
          · intro c hc
            rcases List.mem_cons.mp hc with hc | hc
            · rwa [hc]
            · exact List.mem_takeWhile_imp hc
          · rw [← h]
            have := List.takeWhile_append_dropWhile isLowerChar ds
            simp only [List.cons_append, List.cons.injEq, true_and]
            rw [this]
          · intro x hx
            rw [← h] at hx
            have := List.head?_dropWhile_not isLowerChar ds
            rw [hx] at this
            exact this
        · rw [if_neg hd] at h
          exact absurd h (by simp)
      · rw [if_neg hu] at h
        exact absurd h (by simp)
  · rintro ⟨code, ⟨u, rest, hu, hne, hlow, rfl⟩, rfl, hr⟩
    match rest, hne with
    | d :: rest', _ =>
      simp only [List.cons_append, chompCodename]
      rw [if_pos hu, if_pos (hlow d (List.mem_cons_self d rest'))]
      rw [dropWhile_append_of_all fun c hc => hlow c (List.mem_cons_of_mem d hc)]
      rw [dropWhile_of_headNot hr]

/-- The language of `Node \d+\.\d+\.\d+ LTS \([A-Z][a-z]+\)`. -/
def NodeImageNameShape (cs : List Char) : Prop :=
  ∃ ver code, VersionTripleShape ver ∧ CodenameShape code ∧
    cs = "Node ".toList ++ ver ++ " LTS (".toList ++ code ++ [')']

theorem matchesNodeImageNameRegex_iff {s : String} :
    matchesNodeImageNameRegex s = true ↔ NodeImageNameShape s.toList := by
  unfold matchesNodeImageNameRegex
  rw [beq_iff_eq]
  constructor
  · intro h
    obtain ⟨r4, g4, g5⟩ := Option.bind_eq_some.mp h
    obtain ⟨r3, g3, g4'⟩ := Option.bind_eq_some.mp g4
    obtain ⟨r2, g2, g3'⟩ := Option.bind_eq_some.mp g3
    obtain ⟨r1, g1, g2'⟩ := Option.bind_eq_some.mp g2
    rw [chompLit_eq_some] at g1
    obtain ⟨ver, hver, rfl, -⟩ := chompVersionTriple_eq_some.mp g2'
    rw [chompLit_eq_some] at g3'
    subst g3'
    obtain ⟨code, hcode, rfl, -⟩ := chompCodename_eq_some.mp g4'
    rw [chompLit_eq_some, List.append_nil] at g5
    subst g5
    exact ⟨ver, code, hver, hcode, by rw [g1]; simp⟩
  · rintro ⟨ver, code, hver, hcode, hs⟩
    rw [hs]
    have h1 : chompLit "Node ".toList
        ("Node ".toList ++ ver ++ " LTS (".toList ++ code ++ [')']) =
        some (ver ++ (" LTS (".toList ++ code ++ [')'])) := by
      rw [chompLit_eq_some]
      simp
    rw [h1, Option.some_bind]
    have h2 : chompVersionTriple (ver ++ (" LTS (".toList ++ code ++ [')'])) =
        some (" LTS (".toList ++ code ++ [')']) := by
      rw [chompVersionTriple_eq_some]
      exact ⟨ver, hver, rfl, headNot_cons (by rfl) _⟩
    rw [h2, Option.some_bind]
    have h3 : chompLit " LTS (".toList (" LTS (".toList ++ code ++ [')']) =
        some (code ++ [')']) := by
      rw [chompLit_eq_some]
      simp
    rw [h3, Option.some_bind]
    have h4 : chompCodename (code ++ [')']) = some [')'] := by
      rw [chompCodename_eq_some]
      exact ⟨code, hcode, rfl, headNot_cons (by rfl) _⟩
    rw [h4, Option.some_bind]
    rw [chompLit_eq_some]
    rfl

theorem extractParen_of_decomp {s : String} {pre code : List Char}
    (hs : s.toList = pre ++ '(' :: code ++ [')'])
    (h1 : '(' ∉ pre) (h2 : ')' ∉ pre) (h3 : ')' ∉ code) (h4 : code ≠ []) :
    extractParenCodename s = some (String.mk code) := by
  obtain ⟨d, code', rfl⟩ := List.exists_cons_of_ne_nil h4
  have hall : ∀ c ∈ (pre ++ '(' :: d :: code').reverse,
      (fun c => decide (c ≠ ')')) c = true := by
    intro c hc
    rw [List.mem_reverse] at hc
    simp only [decide_eq_true_eq]
    rcases List.mem_append.mp hc with hc | hc
    · exact fun he => h2 (he ▸ hc)
    · rcases List.mem_cons.mp hc with rfl | hc
      · intro he
        exact absurd he (by decide)
      · exact fun he => h3 (he ▸ hc)
  have hpre : ∀ c ∈ pre, (fun c => decide (c ≠ '(')) c = true := by
    intro c hc
    simp only [decide_eq_true_eq]
    exact fun he => h1 (he ▸ hc)
  unfold extractParenCodename
  rw [hs]
  dsimp only
  rw [List.getLast?_concat, List.dropLast_concat, takeWhile_of_all hall,
    List.reverse_reverse, dropWhile_append_of_all hpre, List.dropWhile_cons]
  simp

theorem versionTriple_chars {cs : List Char} (h : VersionTripleShape cs)
    {c : Char} (hc : c ∈ cs) : isDigitChar c = true ∨ c = '.' := by
  obtain ⟨a, b, d, ha, hb, hd, rfl⟩ := h
  simp only [digits1, Bool.and_eq_true, List.all_eq_true] at ha hb hd
  simp only [List.mem_append, List.mem_cons] at hc
  rcases hc with (hc | rfl | hc) | rfl | hc
  · exact .inl (ha.2 c hc)
  · exact .inr rfl
  · exact .inl (hb.2 c hc)
  · exact .inr rfl
  · exact .inl (hd.2 c hc)

theorem codename_chars {cs : List Char} (h : CodenameShape cs) {c : Char} (hc : c ∈ cs) :
    isUpperChar c = true ∨ isLowerChar c = true := by
  obtain ⟨u, rest, hu, -, hlow, rfl⟩ := h
  rcases List.mem_cons.mp hc with rfl | hc
  · exact .inl hu
  · exact .inr (hlow c hc)

/-- On an `image-name` of the regex's language, the capture of
`/\(([^)]+)\)$/` is exactly the codename. -/
theorem nodeImageName_extract {s : String} {ver code : List Char}
    (hver : VersionTripleShape ver) (hcode : CodenameShape code)
    (hs : s.toList = "Node ".toList ++ ver ++ " LTS (".toList ++ code ++ [')']) :
    extractParenCodename s = some (String.mk code) := by
  have hL : " LTS (".toList = " LTS ".toList ++ ['('] := rfl
  have hs' : s.toList = ("Node ".toList ++ ver ++ " LTS ".toList) ++ '(' :: code ++ [')'] := by
    rw [hs, hL]
    simp [List.append_assoc]
  have hverp := fun {c} (hc : c ∈ ver) => versionTriple_chars hver hc
  have hcodep := fun {c} (hc : c ∈ code) => codename_chars hcode hc
  apply extractParen_of_decomp hs'
  · intro hc
    simp only [List.mem_append] at hc
    rcases hc with (hc | hc) | hc
    · exact absurd hc (by decide)
    · rcases hverp hc with hd | hd
      · exact absurd hd (by decide)
      · exact absurd hd (by decide)
    · exact absurd hc (by decide)
  · intro hc
    simp only [List.mem_append] at hc
    rcases hc with (hc | hc) | hc
    · exact absurd hc (by decide)
    · rcases hverp hc with hd | hd
      · exact absurd hd (by decide)
      · exact absurd hd (by decide)
    · exact absurd hc (by decide)
  · intro hc
    rcases hcodep hc with hd | hd
    · exact absurd hd (by decide)
    · exact absurd hd (by decide)
  · obtain ⟨u, rest, -, -, -, rfl⟩ := hcode
    exact List.cons_ne_nil u rest

theorem verLe_refl (a : String) : VerLe a a := by
  unfold VerLe versionStrLeB
  cases parseSemver a <;> simp [svLeB_refl]

theorem verLe_iff_svLeB {x y : String} {sx sy : SemVer}
    (hx : parseSemver x = some sx) (hy : parseSemver y = some sy) :
    VerLe x y ↔ svLeB sx sy = true := by
  unfold VerLe versionStrLeB
  rw [hx, hy]

/-- In a `Pairwise le` list (with `le` reflexive) the last element is an
upper bound. -/
theorem getLast_ge_of_pairwise {α : Type} {le : α → α → Prop} :
    ∀ {l : List α}, l.Pairwise le → (∀ a, le a a) → ∀ {m}, l.getLast? = some m →
      ∀ {x}, x ∈ l → le x m := by
  intro l
  induction l with
  | nil =>
    intro _ _ m hm
    simp at hm
  | cons a t ih =>
    intro hp hrefl m hm x hx
    cases t with
    | nil =>
      simp only [List.getLast?_singleton, Option.some.injEq] at hm
      rcases List.mem_singleton.mp hx with rfl
      rw [← hm]
      exact hrefl x
    | cons b t' =>
      rw [List.getLast?_cons_cons] at hm
      rcases List.mem_cons.mp hx with rfl | hx'
      · exact (List.pairwise_cons.mp hp).1 m (List.mem_of_mem_getLast? hm)
      · exact ih (List.pairwise_cons.mp hp).2 hrefl hm hx'

theorem findLtsVersion_none {cv : SemVer} :
    ∀ {l : List NodeVersion},
      (∀ v ∈ l, (parseSemver v.version).isSome = true) →
      (∀ v ∈ l, parseSemver v.version ≠ some cv) →
      findLtsVersion cv l = .ok none := by
  intro l
  induction l with
  | nil => intro _ _; rfl
  | cons v t ih =>
    intro hall hno
    have hv := hall v (List.mem_cons_self v t)
    obtain ⟨sv, hsv⟩ := Option.isSome_iff_exists.mp hv
    simp only [findLtsVersion, hsv]
    rw [if_neg (by
      intro he
      exact hno v (List.mem_cons_self v t) (by rw [hsv, eq_of_beq he]))]
    exact ih (fun w hw => hall w (List.mem_cons_of_mem v hw))
      (fun w hw => hno w (List.mem_cons_of_mem v hw))

theorem findLtsVersion_some {cv : SemVer} :
    ∀ {l : List NodeVersion} {lv : NodeVersion},
      findLtsVersion cv l = .ok (some lv) →
      lv ∈ l ∧ parseSemver lv.version = some cv := by
  intro l
  induction l with
  | nil =>
    intro lv h
    exact absurd h (by simp [findLtsVersion])
  | cons v t ih =>
    intro lv h
    cases hsv : parseSemver v.version with
    | none =>
      simp only [findLtsVersion, hsv] at h
      exact absurd h (by simp)
    | some sv =>
      simp only [findLtsVersion, hsv] at h
      by_cases he : (sv == cv) = true
      · rw [if_pos he] at h
        simp only [Except.ok.injEq, Option.some.injEq] at h
        rw [← h]
        exact ⟨List.mem_cons_self v t, by rw [hsv, eq_of_beq he]⟩
      · rw [if_neg he] at h
        obtain ⟨hm, hp⟩ := ih h
        exact ⟨List.mem_cons_of_mem v hm, hp⟩

/-! ### Characterisation of the per-major merge map -/

/-- The record selected for major `m` by scanning `l` left to right starting
from `acc`: a later record replaces the current pick only when its version
is strictly greater (on a tie the earlier pick is kept), records of other
majors or with unparseable versions are ignored.  This is the declarative
content of the merge rule, stated without the keyed map. -/
def bestByMajor (m : Nat) : List NodeVersion → Option (SemVer × NodeVersion) →
    Option (SemVer × NodeVersion)
  | [], acc => acc
  | v :: rest, acc =>
    match parseSemver v.version with
    | none => bestByMajor m rest acc
    | some sv =>
      if sv.major = m then
        match acc with
        | none => bestByMajor m rest (some (sv, v))
        | some (bsv, bv) =>
          if svLeB sv bsv then bestByMajor m rest (some (bsv, bv))
          else bestByMajor m rest (some (sv, v))
      else bestByMajor m rest acc

theorem mapGet_cons (e : Nat × SemVer × NodeVersion) (t : VMap) (k : Nat) :
    mapGet (e :: t) k = if e.1 == k then some e.2 else mapGet t k := by
  cases he : (e.1 == k) <;> simp [mapGet, List.find?, he]

theorem mapGet_set_self (mp : VMap) (k : Nat) (val : SemVer × NodeVersion) :
    mapGet (mapSet mp k val) k = some val := by
  unfold mapSet
  by_cases h : mp.any (fun e => e.1 == k) = true
  · rw [if_pos h]
    induction mp with
    | nil => simp at h
    | cons e t ih =>
      rw [List.map_cons, mapGet_cons]
      by_cases he : (e.1 == k) = true
      · simp [he]
      · simp only [he, Bool.false_eq_true, if_false]
        apply ih
        simp only [List.any_cons, he, Bool.false_or] at h
        exact h
  · rw [if_neg h]
    induction mp with
    | nil => simp [mapGet, List.find?]
    | cons e t ih =>
      simp only [List.any_cons, Bool.or_eq_true, not_or] at h
      rw [List.cons_append, mapGet_cons, if_neg (by simp [h.1])]
      exact ih (by simp [h.2])

theorem mapGet_set_other (mp : VMap) (k : Nat) (val : SemVer × NodeVersion)
    {k' : Nat} (hk : k' ≠ k) : mapGet (mapSet mp k val) k' = mapGet mp k' := by
  unfold mapSet
  by_cases h : mp.any (fun e => e.1 == k) = true
  · rw [if_pos h]
    clear h
    induction mp with
    | nil => rfl
    | cons e t ih =>
      rw [List.map_cons, mapGet_cons, mapGet_cons]
      by_cases he : (e.1 == k) = true
      · have hek : e.1 = k := eq_of_beq he
        have h1 : (k == k') = false := by
          simp only [beq_eq_false_iff_ne, ne_eq]
          exact fun hkk => hk hkk.symm
        have h2 : (e.1 == k') = false := by rw [hek]; exact h1
        simp only [he, if_true, h1, h2, Bool.false_eq_true, if_false]
        exact ih
      · simp only [he, Bool.false_eq_true, if_false]
        by_cases hek' : (e.1 == k') = true
        · simp [hek']
        · simp only [hek', Bool.false_eq_true, if_false]
          exact ih
  · rw [if_neg h]
    induction mp with
    | nil =>
      rw [List.nil_append, mapGet_cons]
      have h1 : (k == k') = false := by
        simp only [beq_eq_false_iff_ne, ne_eq]
        exact fun hkk => hk hkk.symm
      simp [h1, mapGet, List.find?]
    | cons e t ih =>
      simp only [List.any_cons, Bool.or_eq_true, not_or] at h
      rw [List.cons_append, mapGet_cons, mapGet_cons]
      by_cases hek' : (e.1 == k') = true
      · simp [hek']
      · simp only [hek', Bool.false_eq_true, if_false]
        exact ih (by simp [h.2])

/-- The keyed merge loop computes, under each key, exactly the declarative
left-to-right pick. -/
theorem foldl_latestByMajorStep_get (m : Nat) :
    ∀ (l : List NodeVersion) (mp : VMap),
      mapGet (l.foldl latestByMajorStep mp) m = bestByMajor m l (mapGet mp m) := by
  intro l
  induction l with
  | nil =>
    intro mp
    rfl
  | cons v rest ih =>
    intro mp
    rw [List.foldl_cons, ih]
    cases hv : parseSemver v.version with
    | none =>
      have hstep : latestByMajorStep mp v = mp := by
        unfold latestByMajorStep
        rw [hv]
      simp only [bestByMajor, hv]
      rw [hstep]
    | some sv =>
      have hstep : latestByMajorStep mp v =
          (match mapGet mp sv.major with
          | some (storedSv, _) =>
            if svLeB sv storedSv then mp else mapSet mp sv.major (sv, v)
          | none => mapSet mp sv.major (sv, v)) := by
        unfold latestByMajorStep
        rw [hv]
      simp only [bestByMajor, hv]
      rw [hstep]
      by_cases hm : sv.major = m
      · subst hm
        rw [if_pos rfl]
        cases hacc : mapGet mp sv.major with
        | none =>
          dsimp only
          rw [mapGet_set_self]
        | some p =>
          obtain ⟨ssv, sw⟩ := p
          dsimp only
          by_cases hle : svLeB sv ssv = true
          · simp only [hle, if_true]
            rw [hacc]
          · simp only [hle, Bool.false_eq_true, if_false]
            rw [mapGet_set_self]
      · rw [if_neg hm]
        cases hacc : mapGet mp sv.major with
        | none =>
          dsimp only
          rw [mapGet_set_other _ _ _ fun h => hm h.symm]
        | some p =>
          obtain ⟨ssv, sw⟩ := p
          dsimp only
          by_cases hle : svLeB sv ssv = true
          · simp only [hle, if_true]
          · simp only [hle, Bool.false_eq_true, if_false]
            rw [mapGet_set_other _ _ _ fun h => hm h.symm]

/-- Invariants of the merge map: every stored entry carries its own parsed
version, is keyed by that version's major, and keys are distinct. -/
def WFMap (mp : VMap) : Prop :=
  (∀ e ∈ mp, parseSemver e.2.2.version = some e.2.1 ∧ e.2.1.major = e.1) ∧
  mp.Pairwise fun a b => a.1 ≠ b.1

theorem wfMap_set {mp : VMap} (h : WFMap mp) {sv : SemVer} {v : NodeVersion}
    (hv : parseSemver v.version = some sv) :
    WFMap (mapSet mp sv.major (sv, v)) := by
  unfold mapSet
  by_cases hany : mp.any (fun e => e.1 == sv.major) = true
  · rw [if_pos hany]
    constructor
    · intro e he
      rw [List.mem_map] at he
      obtain ⟨e', he', rfl⟩ := he
      by_cases hk : (e'.1 == sv.major) = true
      · simp only [hk, if_true]
        exact ⟨hv, by trivial⟩
      · simp only [hk, Bool.false_eq_true, if_false]
        exact h.1 e' he'
    · rw [List.pairwise_map]
      apply h.2.imp
      intro a b hab
      have hkey : ∀ x : Nat × SemVer × NodeVersion,
          ((if (x.1 == sv.major) = true then (sv.major, sv, v) else x)).1 = x.1 := by
        intro x
        by_cases hx : (x.1 == sv.major) = true
        · simp only [hx, if_true]
          exact (eq_of_beq hx).symm
        · simp only [hx, Bool.false_eq_true, if_false]
      rw [hkey a, hkey b]
      exact hab
  · rw [if_neg hany]
    constructor
    · intro e he
      rcases List.mem_append.mp he with he | he
      · exact h.1 e he
      · rcases List.mem_singleton.mp he with rfl
        exact ⟨hv, rfl⟩
    · rw [List.pairwise_append]
      refine ⟨h.2, List.pairwise_singleton _ _, ?_⟩
      intro a ha b hb
      rcases List.mem_singleton.mp hb with rfl
      intro hcontra
      apply hany
      rw [List.any_eq_true]
      exact ⟨a, ha, by simp [hcontra]⟩

theorem wfMap_step {mp : VMap} (h : WFMap mp) (v : NodeVersion) :
    WFMap (latestByMajorStep mp v) := by
  cases hv : parseSemver v.version with
  | none =>
    have hstep : latestByMajorStep mp v = mp := by
      unfold latestByMajorStep
      rw [hv]
    rw [hstep]
    exact h
  | some sv =>
    have hstep : latestByMajorStep mp v =
        (match mapGet mp sv.major with
        | some (storedSv, _) =>
          if svLeB sv storedSv then mp else mapSet mp sv.major (sv, v)
        | none => mapSet mp sv.major (sv, v)) := by
      unfold latestByMajorStep
      rw [hv]
    rw [hstep]
    cases mapGet mp sv.major with
    | none => exact wfMap_set h hv
    | some p =>
      obtain ⟨ssv, sw⟩ := p
      dsimp only
      by_cases hle : svLeB sv ssv = true
      · rw [if_pos hle]
        exact h
      · rw [if_neg hle]
        exact wfMap_set h hv

theorem wfMap_foldl (l : List NodeVersion) :
    ∀ mp, WFMap mp → WFMap (l.foldl latestByMajorStep mp) := by
  induction l with
  | nil =>
    intro mp h
    exact h
  | cons v rest ih =>
    intro mp h
    rw [List.foldl_cons]
    exact ih _ (wfMap_step h v)

theorem wfMap_nil : WFMap [] := ⟨by simp, List.Pairwise.nil⟩

theorem mapGet_of_mem {mp : VMap} (hwf : mp.Pairwise fun a b => a.1 ≠ b.1)
    {e : Nat × SemVer × NodeVersion} (he : e ∈ mp) : mapGet mp e.1 = some e.2 := by
  induction mp with
  | nil => cases he
  | cons x t ih =>
    rw [mapGet_cons]
    rcases List.mem_cons.mp he with rfl | he'
    · simp
    · have hx : x.1 ≠ e.1 := (List.pairwise_cons.mp hwf).1 e he'
      rw [if_neg (by simp [hx])]
      exact ih (List.pairwise_cons.mp hwf).2 he'

theorem mem_of_mapGet {mp : VMap} {k : Nat} {p : SemVer × NodeVersion}
    (h : mapGet mp k = some p) : (k, p) ∈ mp := by
  unfold mapGet at h
  cases hf : mp.find? (fun e => e.1 == k) with
  | none =>
    rw [hf] at h
    simp at h
  | some e =>
    rw [hf] at h
    simp at h
    have hmem := List.mem_of_find?_eq_some hf
    have hkey := List.find?_some hf
    have : e = (k, p) := by
      obtain ⟨e1, e2⟩ := e
      simp only at h hkey
      rw [eq_of_beq hkey, h]
    rwa [this] at hmem

/-- Membership in the merged per-major values, characterised by the
declarative pick. -/
theorem mem_merged_iff (inputs : List NodeVersion) (x : NodeVersion) :
    (x ∈ (inputs.foldl latestByMajorStep []).map fun e => e.2.2) ↔
      ∃ m sv, bestByMajor m inputs none = some (sv, x) := by
  have hwf := wfMap_foldl inputs [] wfMap_nil
  constructor
  · intro hx
    rw [List.mem_map] at hx
    obtain ⟨e, he, rfl⟩ := hx
    refine ⟨e.1, e.2.1, ?_⟩
    have hget := mapGet_of_mem hwf.2 he
    rw [foldl_latestByMajorStep_get] at hget
    exact hget
  · rintro ⟨m, sv, hbest⟩
    have hget : mapGet (inputs.foldl latestByMajorStep []) m = some (sv, x) := by
      rw [foldl_latestByMajorStep_get]
      exact hbest
    rw [List.mem_map]
    exact ⟨(m, sv, x), mem_of_mapGet hget, rfl⟩

/-- The declarative pick dominates every same-major parseable record of the
scanned list, and every previously accumulated pick. -/
theorem bestByMajor_max (m : Nat) :
    ∀ (l : List NodeVersion) (acc : Option (SemVer × NodeVersion)) {sv : SemVer}
      {x : NodeVersion}, bestByMajor m l acc = some (sv, x) →
      (∀ w ∈ l, ∀ sw, parseSemver w.version = some sw → sw.major = m →
        svLeB sw sv = true) ∧
      (∀ bsv bv, acc = some (bsv, bv) → svLeB bsv sv = true) := by
  intro l
  induction l with
  | nil =>
    intro acc sv x h
    refine ⟨by simp, ?_⟩
    intro bsv bv hacc
    rw [hacc] at h
    simp only [bestByMajor, Option.some.injEq, Prod.mk.injEq] at h
    rw [h.1]
    exact svLeB_refl sv
  | cons v rest ih =>
    intro acc sv x h
    simp only [bestByMajor] at h
    cases hv : parseSemver v.version with
    | none =>
      rw [hv] at h
      obtain ⟨h1, h2⟩ := ih acc h
      refine ⟨?_, h2⟩
      intro w hw sw hsw hmaj
      rcases List.mem_cons.mp hw with rfl | hw'
      · rw [hv] at hsw
        cases hsw
      · exact h1 w hw' sw hsw hmaj
    | some svv =>
      rw [hv] at h
      dsimp only at h
      by_cases hm : svv.major = m
      · rw [if_pos hm] at h
        cases acc with
        | none =>
          obtain ⟨h1, h2⟩ := ih (some (svv, v)) h
          have hvv : svLeB svv sv = true := h2 svv v rfl
          refine ⟨?_, by simp⟩
          intro w hw sw hsw hmaj
          rcases List.mem_cons.mp hw with rfl | hw'
          · rw [hv] at hsw
            injection hsw with hsw'
            rw [← hsw']
            exact hvv
          · exact h1 w hw' sw hsw hmaj
        | some p =>
          obtain ⟨bsv, bv⟩ := p
          dsimp only at h
          by_cases hle : svLeB svv bsv = true
          · rw [if_pos hle] at h
            obtain ⟨h1, h2⟩ := ih (some (bsv, bv)) h
            have hbb : svLeB bsv sv = true := h2 bsv bv rfl
            refine ⟨?_, ?_⟩
            · intro w hw sw hsw hmaj
              rcases List.mem_cons.mp hw with rfl | hw'
              · rw [hv] at hsw
                injection hsw with hsw'
                rw [← hsw']
                exact svLeB_trans hle hbb
              · exact h1 w hw' sw hsw hmaj
            · intro bsv' bv' hacc
              injection hacc with hacc'
              injection hacc' with he1 he2
              rw [← he1]
              exact hbb
          · rw [if_neg hle] at h
            obtain ⟨h1, h2⟩ := ih (some (svv, v)) h
            have hvv : svLeB svv sv = true := h2 svv v rfl
            have hbv : svLeB bsv svv = true := by
              rcases svLeB_total bsv svv with h' | h'
              · exact h'
              · exact absurd h' hle
            refine ⟨?_, ?_⟩
            · intro w hw sw hsw hmaj
              rcases List.mem_cons.mp hw with rfl | hw'
              · rw [hv] at hsw
                injection hsw with hsw'
                rw [← hsw']
                exact hvv
              · exact h1 w hw' sw hsw hmaj
            · intro bsv' bv' hacc
              injection hacc with hacc'
              injection hacc' with he1 he2
              rw [← he1]
              exact svLeB_trans hbv hvv
      · rw [if_neg hm] at h
        obtain ⟨h1, h2⟩ := ih acc h
        refine ⟨?_, h2⟩
        intro w hw sw hsw hmaj
        rcases List.mem_cons.mp hw with rfl | hw'
        · rw [hv] at hsw
          injection hsw with hsw'
          rw [← hsw'] at hmaj
          exact absurd hmaj hm
        · exact h1 w hw' sw hsw hmaj

/-- The merged values carry pairwise distinct majors. -/
theorem merged_majors_distinct (inputs : List NodeVersion) :
    ((inputs.foldl latestByMajorStep []).map fun e => e.2.2).Pairwise fun x y =>
      ∀ sx sy, parseSemver x.version = some sx → parseSemver y.version = some sy →
        sx.major ≠ sy.major := by
  have hwf := wfMap_foldl inputs [] wfMap_nil
  rw [List.pairwise_map]
  refine hwf.2.imp_of_mem ?_
  intro a b ha hb hab sx sy hsx hsy
  obtain ⟨hpa, hma⟩ := hwf.1 a ha
  obtain ⟨hpb, hmb⟩ := hwf.1 b hb
  rw [hpa] at hsx
  rw [hpb] at hsy
  injection hsx with hsx'
  injection hsy with hsy'
  rw [← hsx', ← hsy', hma, hmb]
  exact hab

/-- The declarative pick always carries its record's parsed version. -/
theorem bestByMajor_parse (m : Nat) :
    ∀ (l : List NodeVersion) (acc : Option (SemVer × NodeVersion)),
      (∀ q, acc = some q → parseSemver q.2.version = some q.1) →
      ∀ {p}, bestByMajor m l acc = some p → parseSemver p.2.version = some p.1 := by
  intro l
  induction l with
  | nil =>
    intro acc hacc p h
    exact hacc p h
  | cons v rest ih =>
    intro acc hacc p h
    simp only [bestByMajor] at h
    cases hv : parseSemver v.version with
    | none =>
      rw [hv] at h
      exact ih acc hacc h
    | some sv =>
      rw [hv] at h
      dsimp only at h
      by_cases hm : sv.major = m
      · rw [if_pos hm] at h
        cases acc with
        | none =>
          refine ih (some (sv, v)) ?_ h
          intro q hq
          injection hq with hq'
          rw [← hq']
          exact hv
        | some b =>
          obtain ⟨bsv, bv⟩ := b
          dsimp only at h
          by_cases hle : svLeB sv bsv = true
          · rw [if_pos hle] at h
            exact ih (some (bsv, bv)) hacc h
          · rw [if_neg hle] at h
            refine ih (some (sv, v)) ?_ h
            intro q hq
            injection hq with hq'
            rw [← hq']
            exact hv
      · rw [if_neg hm] at h
        exact ih acc hacc h

/-- A single-key merge map, as produced when every input shares major `m`. -/
def optEntry (m : Nat) : Option (SemVer × NodeVersion) → VMap
  | none => []
  | some p => [(m, p)]

theorem foldl_single_major (m : Nat) :
    ∀ (l : List NodeVersion),
      (∀ v ∈ l, ∀ sv, parseSemver v.version = some sv → sv.major = m) →
      ∀ b, l.foldl latestByMajorStep (optEntry m b) = optEntry m (bestByMajor m l b) := by
  intro l
  induction l with
  | nil =>
    intro _ b
    rfl
  | cons v rest ih =>
    intro hl b
    rw [List.foldl_cons]
    have hrest : ∀ v ∈ rest, ∀ sv, parseSemver v.version = some sv → sv.major = m :=
      fun w hw => hl w (List.mem_cons_of_mem v hw)
    cases hv : parseSemver v.version with
    | none =>
      have hstep : latestByMajorStep (optEntry m b) v = optEntry m b := by
        unfold latestByMajorStep
        rw [hv]
      rw [hstep]
      simp only [bestByMajor, hv]
      exact ih hrest b
    | some sv =>
      have hsvm : sv.major = m := hl v (List.mem_cons_self v rest) sv hv
      simp only [bestByMajor, hv, if_pos hsvm]
      cases b with
      | none =>
        have hstep : latestByMajorStep (optEntry m none) v =
            optEntry m (some (sv, v)) := by
          unfold latestByMajorStep
          rw [hv]
          dsimp only
          rw [show mapGet (optEntry m none) sv.major = none from rfl]
          unfold mapSet optEntry
          rw [if_neg (by simp)]
          rw [hsvm]
          rfl
        rw [hstep]
        exact ih hrest (some (sv, v))
      | some p =>
        obtain ⟨bsv, bv⟩ := p
        have hget : mapGet (optEntry m (some (bsv, bv))) sv.major = some (bsv, bv) := by
          unfold optEntry
          rw [mapGet_cons, if_pos (by simp [hsvm])]
        dsimp only
        by_cases hle : svLeB sv bsv = true
        · have hstep : latestByMajorStep (optEntry m (some (bsv, bv))) v =
              optEntry m (some (bsv, bv)) := by
            unfold latestByMajorStep
            rw [hv]
            dsimp only
            rw [hget]
            dsimp only
            rw [if_pos hle]
          rw [hstep, if_pos hle]
          exact ih hrest (some (bsv, bv))
        · have hstep : latestByMajorStep (optEntry m (some (bsv, bv))) v =
              optEntry m (some (sv, v)) := by
            unfold latestByMajorStep
            rw [hv]
            dsimp only
            rw [hget]
            dsimp only
            rw [if_neg hle]
            unfold mapSet optEntry
            rw [if_pos (by simp [hsvm])]
            rw [List.map_singleton, if_pos (by simp [hsvm]), hsvm]
          rw [hstep, if_neg hle]
          exact ih hrest (some (sv, v))

/-- `getLatestVersionsByMajor` restricted to one major line produces at most
one record: the declarative pick for that major over the whole universe. -/
theorem latestByMajor_single (l : List NodeVersion) (m : Nat) :
    (getLatestVersionsByMajor (getVersionsByMajorVersion l m)).head? =
      (bestByMajor m l none).map fun p => p.2 := by
  have hsm : ∀ v ∈ getVersionsByMajorVersion l m, ∀ sv,
      parseSemver v.version = some sv → sv.major = m := by
    intro v hv sv hsv
    unfold getVersionsByMajorVersion at hv
    rw [List.mem_filter] at hv
    have h2 := hv.2
    rw [hsv] at h2
    exact eq_of_beq h2
  have hbf : ∀ acc, bestByMajor m (getVersionsByMajorVersion l m) acc =
      bestByMajor m l acc := by
    intro acc
    clear hsm
    induction l generalizing acc with
    | nil => rfl
    | cons v rest ih =>
      unfold getVersionsByMajorVersion
      rw [List.filter_cons]
      cases hv : parseSemver v.version with
      | none =>
        rw [if_neg (by simp)]
        simp only [bestByMajor, hv]
        exact ih acc
      | some sv =>
        by_cases hm : sv.major = m
        · rw [if_pos (by simp [hm])]
          simp only [bestByMajor, hv, if_pos hm]
          cases acc with
          | none => exact ih _
          | some p =>
            obtain ⟨bsv, bv⟩ := p
            dsimp only
            by_cases hle : svLeB sv bsv = true
            · rw [if_pos hle, if_pos hle]
              exact ih _
            · rw [if_neg hle, if_neg hle]
              exact ih _
        · rw [if_neg (by simp [hm])]
          simp only [bestByMajor, hv, if_neg hm]
          exact ih acc
  unfold getLatestVersionsByMajor
  rw [show ((getVersionsByMajorVersion l m).foldl latestByMajorStep []) =
      optEntry m (bestByMajor m (getVersionsByMajorVersion l m) none) from
    foldl_single_major m _ hsm none]
  rw [hbf none]
  cases bestByMajor m l none with
  | none => rfl
  | some p => rfl

/-- The decision taken for one published tag whose version cleans to `tsv`:
skip an active-LTS major, otherwise take the universe's pick for that major
exactly when it is strictly greater than the published tag. -/
def newerEolPick (allVersions : List NodeVersion) (activeLtsMajorVersions : List Nat)
    (tsv : SemVer) : Option NodeVersion :=
  if activeLtsMajorVersions.contains tsv.major then none
  else
    match bestByMajor tsv.major allVersions none with
    | none => none
    | some (csv, cand) => if svLeB csv tsv then none else some cand

theorem newerEolCandidate_char (allVersions : List NodeVersion)
    (majors : List Nat) (t : RegularVersion) {tsv : SemVer}
    (ht : parseSemver t.version = some tsv) :
    newerEolCandidate allVersions majors t =
      .ok (newerEolPick allVersions majors tsv) := by
  unfold newerEolCandidate newerEolPick
  rw [ht]
  dsimp only
  by_cases hc : majors.contains tsv.major = true
  · rw [if_pos hc, if_pos hc]
  · rw [if_neg hc, if_neg hc]
    rw [show (getLatestVersionsByMajor
        (getVersionsByMajorVersion allVersions tsv.major)).head? =
        (bestByMajor tsv.major allVersions none).map (fun p => p.2) from
      latestByMajor_single _ _]
    cases hbest : bestByMajor tsv.major allVersions none with
    | none => rfl
    | some p =>
      obtain ⟨csv, cand⟩ := p
      dsimp only [Option.map]
      have hpc : parseSemver cand.version = some csv :=
        bestByMajor_parse _ allVersions none (by intro q hq; cases hq) hbest
      rw [hpc]
      dsimp only
      by_cases hle : svLeB csv tsv = true
      · rw [if_pos hle, if_pos hle]
      · rw [if_neg hle, if_neg hle]

theorem newerEolLoop_char (allVersions : List NodeVersion) (majors : List Nat) :
    ∀ tags : List RegularVersion,
      (∀ t ∈ tags, (parseSemver t.version).isSome = true) →
      ∃ res, newerEolLoop allVersions majors tags = .ok res ∧
        ∀ cand, cand ∈ res ↔ ∃ t ∈ tags, ∃ tsv, parseSemver t.version = some tsv ∧
          newerEolPick allVersions majors tsv = some cand := by
  intro tags
  induction tags with
  | nil =>
    intro _
    exact ⟨[], rfl, by simp⟩
  | cons t rest ih =>
    intro hall
    obtain ⟨tsv, htsv⟩ := Option.isSome_iff_exists.mp (hall t (List.mem_cons_self t rest))
    obtain ⟨res, hres, hchar⟩ := ih fun w hw => hall w (List.mem_cons_of_mem t hw)
    refine ⟨(newerEolPick allVersions majors tsv).toList ++ res, ?_, ?_⟩
    · simp only [newerEolLoop]
      rw [newerEolCandidate_char allVersions majors t htsv, hres]
    · intro cand
      rw [List.mem_append]
      constructor
      · rintro (hc | hc)
        · refine ⟨t, List.mem_cons_self t rest, tsv, htsv, ?_⟩
          cases hp : newerEolPick allVersions majors tsv with
          | none =>
            rw [hp] at hc
            cases hc
          | some c =>
            rw [hp] at hc
            rw [List.mem_singleton.mp hc]
        · obtain ⟨t', ht', tsv', h1, h2⟩ := (hchar cand).mp hc
          exact ⟨t', List.mem_cons_of_mem t ht', tsv', h1, h2⟩
      · rintro ⟨t', ht', tsv', h1, h2⟩
        rcases List.mem_cons.mp ht' with rfl | ht''
        · left
          rw [htsv] at h1
          injection h1 with h1'
          rw [h1', h2]
          exact List.mem_singleton.mpr rfl
        · right
          exact (hchar cand).mpr ⟨t', ht'', tsv', h1, h2⟩

/-! ### Claim theorems -/

/-- C6: on an empty eligible-version list the formatter still appends the
sentinel unconditionally and produces exactly the one-element list
`[sentinel]` without an error, and `getVersions` then aborts because the
subsequent validation rejects that list with the "at least two elements"
failure. -/
theorem empty_eligible_formats_sentinel_then_too_short :
    formatEligibleVersions [] = .ok [WorkflowVersion.latest latestVersionObject] ∧
    getVersionsFromEligible [] = .error .tooShort := by
  constructor <;> rfl

/-- C4: an LTS candidate whose version cleans to `sv` is classified as
currently active LTS iff its major line's schedule entry exists, both its
dates are present, and `ltsStart ≤ now < end`; a missing entry or a missing
date classifies it inactive.  `getActiveLtsVersions` keeps exactly the
LTS-designated records so classified. -/
theorem active_lts_classification (scheduleData : ScheduleData) (now : Int)
    (v : NodeVersion) (sv : SemVer) (hp : parseSemver v.version = some sv) :
    (isActiveLtsVersion scheduleData now v = true ↔
      ∃ e : NodeVersionSchedule, scheduleData sv.major = some e ∧
        ∃ s en : Int, e.ltsStart = some s ∧ e.endDate = some en ∧ s ≤ now ∧ now < en) ∧
    (∀ versionData : List NodeVersion,
      v ∈ getActiveLtsVersions scheduleData now versionData ↔
        v ∈ versionData ∧ v.lts.isSome = true ∧
          isActiveLtsVersion scheduleData now v = true) := by
  constructor
  · unfold isActiveLtsVersion
    rw [hp]
    cases hs : scheduleData sv.major with
    | none => simp [hs]
    | some e =>
      cases hl : e.ltsStart with
      | none => simp [hs, hl]
      | some s =>
        cases he : e.endDate with
        | none => simp [hs, hl, he]
        | some en => simp [hs, hl, he]
  · intro versionData
    unfold getActiveLtsVersions getLtsVersions
    simp only [List.mem_filter, Bool.and_eq_true, and_assoc]

/-- Witness for C4: with a schedule placing line 18's LTS window at
`[0, 100)` and `now = 50`, the record `v18.17.1` is classified active. -/
theorem active_lts_classification_witness :
    isActiveLtsVersion (fun m => if m = 18 then some ⟨some 0, some 100⟩ else none) 50
      ⟨"v18.17.1", some "Hydrogen", ""⟩ = true := by
  have h := (active_lts_classification
    (fun m => if m = 18 then some ⟨some 0, some 100⟩ else none) 50
    ⟨"v18.17.1", some "Hydrogen", ""⟩ ⟨18, 17, 1⟩ (by rfl)).1
  exact h.mpr ⟨⟨some 0, some 100⟩, rfl, 0, 100, rfl, rfl, by decide, by decide⟩

theorem latestByMajorStep_skip {bad : NodeVersion} (h : parseSemver bad.version = none)
    (m : VMap) : latestByMajorStep m bad = m := by
  unfold latestByMajorStep
  rw [h]

theorem foldl_latestByMajorStep_skip {bad : NodeVersion}
    (h : parseSemver bad.version = none) (xs ys : List NodeVersion) (m : VMap) :
    (xs ++ bad :: ys).foldl latestByMajorStep m = (xs ++ ys).foldl latestByMajorStep m := by
  rw [List.foldl_append, List.foldl_append, List.foldl_cons, latestByMajorStep_skip h]

/-- C8: a record whose version string fails to normalise is silently skipped
at every filtering step of eligibility selection — the active-LTS filter,
the per-major reduction, and the merge of `getEligibleVersions` (in either
input position) — and each of these total functions returns the same result
as if the record were absent; no error is raised on its account. -/
theorem malformed_record_silently_skipped (bad : NodeVersion)
    (hbad : parseSemver bad.version = none) :
    (∀ scheduleData now, isActiveLtsVersion scheduleData now bad = false) ∧
    (∀ scheduleData now xs ys,
      getActiveLtsVersions scheduleData now (xs ++ bad :: ys) =
        getActiveLtsVersions scheduleData now (xs ++ ys)) ∧
    (∀ xs ys, getLatestVersionsByMajor (xs ++ bad :: ys) =
      getLatestVersionsByMajor (xs ++ ys)) ∧
    (∀ xs ys newerEol, getEligibleVersions (xs ++ bad :: ys) newerEol =
      getEligibleVersions (xs ++ ys) newerEol) ∧
    (∀ activeLts xs ys, getEligibleVersions activeLts (xs ++ bad :: ys) =
      getEligibleVersions activeLts (xs ++ ys)) := by
  have hact : ∀ scheduleData now, isActiveLtsVersion scheduleData now bad = false := by
    intro scheduleData now
    unfold isActiveLtsVersion
    rw [hbad]
  refine ⟨hact, ?_, ?_, ?_, ?_⟩
  · intro scheduleData now xs ys
    unfold getActiveLtsVersions getLtsVersions
    cases hb : bad.lts.isSome <;>
      simp [List.filter_append, List.filter_cons, hb, hact scheduleData now]
  · intro xs ys
    unfold getLatestVersionsByMajor
    rw [foldl_latestByMajorStep_skip hbad]
  · intro xs ys newerEol
    unfold getEligibleVersions getLatestVersionsByMajor
    rw [foldl_latestByMajorStep_skip hbad]
  · intro activeLts xs ys
    unfold getEligibleVersions
    dsimp only
    rw [← List.append_assoc, ← List.append_assoc, foldl_latestByMajorStep_skip hbad]

/-- Witness for C8: the record `not-a-version` does not clean, is classified
inactive, and its presence does not change the per-major reduction. -/
theorem malformed_record_silently_skipped_witness :
    isActiveLtsVersion (fun _ => none) 0 ⟨"not-a-version", some "Foo", ""⟩ = false ∧
    getLatestVersionsByMajor [⟨"v18.17.1", some "Hydrogen", ""⟩,
      ⟨"not-a-version", some "Foo", ""⟩] =
      getLatestVersionsByMajor [⟨"v18.17.1", some "Hydrogen", ""⟩] := by
  have h := malformed_record_silently_skipped ⟨"not-a-version", some "Foo", ""⟩ (by rfl)
  exact ⟨h.1 (fun _ => none) 0,
    h.2.2.1 [⟨"v18.17.1", some "Hydrogen", ""⟩] []⟩

/-- C5: `validateVersions` fails fast in source order with each rule's
specific error: a list of fewer than two elements fails "too short" before
any other check; otherwise an invalid regular entry fails naming the first
offending entry; otherwise zero `latest` sentinels fail "missing latest" and
two or more fail "multiple latest" — in each case regardless of any
violation of the later sentinel-shape, sortedness, last-regular-is-latest
and sentinel-is-last checks. -/
theorem validator_checks_in_order (isValid : RegularVersion → Bool)
    (versions : List WorkflowVersion) :
    (versions.length < 2 → validateVersions isValid versions = .error .tooShort) ∧
    (2 ≤ versions.length →
      ∀ r, (regularEntries versions).find? (fun r => !isValid r) = some r →
        validateVersions isValid versions = .error (.invalidRegular r)) ∧
    (2 ≤ versions.length →
      (∀ r ∈ regularEntries versions, isValid r = true) →
      (latestEntries versions).length = 0 →
      validateVersions isValid versions = .error .missingLatest) ∧
    (2 ≤ versions.length →
      (∀ r ∈ regularEntries versions, isValid r = true) →
      2 ≤ (latestEntries versions).length →
      validateVersions isValid versions = .error .multipleLatest) := by
  refine ⟨?_, ?_, ?_, ?_⟩
  · intro h
    unfold validateVersions
    rw [if_pos h]
  · intro h r hfind
    unfold validateVersions
    rw [if_neg (by omega)]
    dsimp only
    rw [hfind]
  · intro h hval hlen
    have hnone : (regularEntries versions).find? (fun r => !isValid r) = none := by
      rw [List.find?_eq_none]
      intro x hx
      simp [hval x hx]
    have hnil : latestEntries versions = [] := List.length_eq_zero.mp hlen
    unfold validateVersions
    rw [if_neg (by omega)]
    dsimp only
    rw [hnone, hnil]
    rfl
  · intro h hval hlen
    have hnone : (regularEntries versions).find? (fun r => !isValid r) = none := by
      rw [List.find?_eq_none]
      intro x hx
      simp [hval x hx]
    obtain ⟨a, b, rest, h2⟩ : ∃ a b rest, latestEntries versions = a :: b :: rest := by
      match hl : latestEntries versions with
      | [] => rw [hl] at hlen; simp at hlen
      | [x] => rw [hl] at hlen; simp at hlen
      | x :: y :: r => exact ⟨x, y, r, rfl⟩
    unfold validateVersions
    rw [if_neg (by omega)]
    dsimp only
    rw [hnone, h2]
    simp

/-- Witness for C5: the four fail-fast branches at concrete inputs — a
one-element list, a list led by an invalid regular entry, an unsorted
sentinel-free list, and an unsorted list carrying two sentinels. -/
theorem validator_checks_in_order_witness :
    validateVersions nodeIsValidRegularVersion [.latest latestVersionObject] =
      .error .tooShort ∧
    validateVersions nodeIsValidRegularVersion
      [.regular ⟨"invalid", "18", "x", none, .bool true⟩, .latest latestVersionObject] =
      .error (.invalidRegular ⟨"invalid", "18", "x", none, .bool true⟩) ∧
    validateVersions nodeIsValidRegularVersion
      [.regular ⟨"20.10.0", "20", "Node 20.10.0 LTS (Iron)", some "iron", .bool true⟩,
       .regular ⟨"18.17.1", "18", "Node 18.17.1 LTS (Hydrogen)", some "hydrogen", .bool false⟩] =
      .error .missingLatest ∧
    validateVersions nodeIsValidRegularVersion
      [.regular ⟨"20.10.0", "20", "Node 20.10.0 LTS (Iron)", some "iron", .bool true⟩,
       .regular ⟨"18.17.1", "18", "Node 18.17.1 LTS (Hydrogen)", some "hydrogen", .bool false⟩,
       .latest latestVersionObject, .latest latestVersionObject] =
      .error .multipleLatest := by
  refine ⟨(validator_checks_in_order nodeIsValidRegularVersion _).1 (by decide),
    (validator_checks_in_order nodeIsValidRegularVersion _).2.1 (by decide) _ (by rfl),
    (validator_checks_in_order nodeIsValidRegularVersion _).2.2.1 (by decide)
      (by decide) (by rfl),
    (validator_checks_in_order nodeIsValidRegularVersion _).2.2.2 (by decide)
      (by decide) (by decide)⟩

/-- C10: the Jekyll validator requires `image-version` to match the full
`\d+\.\d+\.\d+` pattern, not a bare major number: every regular version
object whose `image-version` contains no dot (in particular a bare major
such as `"4"`) is rejected, while a full `image-version` such as `"4.0.0"`
can be accepted. -/
theorem jekyll_image_version_requires_full_version :
    (∀ v : RegularVersion, '.' ∉ v.imageVersion.toList →
      jekyllIsValidRegularVersion v = false) ∧
    jekyllIsValidRegularVersion ⟨"4.0.0", "4.0.0", "Jekyll 4.0.0", none, .bool true⟩ =
      true := by
  constructor
  · intro v hdot
    by_contra hne
    have hv : jekyllIsValidRegularVersion v = true := by
      cases h : jekyllIsValidRegularVersion v with
      | true => rfl
      | false => exact absurd h hne
    unfold jekyllIsValidRegularVersion at hv
    simp only [Bool.and_eq_true] at hv
    exact hdot (mem_dot_of_versionTripleShape (matchesVersionRegex_iff.mp hv.1.1.2))
  · rfl

/-- Witness for C10: a regular version object whose `image-version` is the
bare major `"4"` is rejected by the Jekyll validator. -/
theorem jekyll_image_version_requires_full_version_witness :
    jekyllIsValidRegularVersion ⟨"4.0.0", "4", "Jekyll 4.0.0", none, .bool true⟩ = false :=
  jekyll_image_version_requires_full_version.1 _ (by decide)

/-- C7: the Node per-field validation accepts a regular version object iff
its `version` lies in the language of `\d+\.\d+\.\d+`, its `image-version`
in that of `\d+`, its `image-name` in that of
`Node \d+\.\d+\.\d+ LTS \([A-Z][a-z]+\)` with `image-code-name` equal to the
lowercased codename parenthesised inside `image-name`, its
`image-code-name` is a non-empty string of lowercase letters, and
`is-latest` is a boolean. -/
theorem node_regular_validation_characterised (v : RegularVersion) :
    nodeIsValidRegularVersion v = true ↔
      VersionTripleShape v.version.toList ∧
      digits1 v.imageVersion.toList = true ∧
      (∃ ver code, VersionTripleShape ver ∧ CodenameShape code ∧
        v.imageName.toList =
          "Node ".toList ++ ver ++ " LTS (".toList ++ code ++ [')'] ∧
        v.imageCodeName = some (strToLower (String.mk code))) ∧
      (∃ lc, v.imageCodeName = some lc ∧ lc.toList ≠ [] ∧
        ∀ ch ∈ lc.toList, isLowerChar ch = true) ∧
      v.isLatest.isBoolean = true := by
  constructor
  · intro h
    simp only [nodeIsValidRegularVersion, Bool.and_eq_true] at h
    obtain ⟨⟨⟨⟨⟨h1, h2⟩, h3⟩, h4⟩, h5⟩, h6⟩ := h
    obtain ⟨ver, code, hver, hcode, hs⟩ := matchesNodeImageNameRegex_iff.mp h3
    have hx := nodeImageName_extract hver hcode hs
    rw [hx] at h6
    have hcn : v.imageCodeName = some (strToLower (String.mk code)) := eq_of_beq h6
    rw [hcn] at h4
    simp only [Option.getD_some, matchesLowerRegex, Bool.and_eq_true,
      Bool.not_eq_true', List.all_eq_true] at h4
    refine ⟨matchesVersionRegex_iff.mp h1, h2,
      ⟨ver, code, hver, hcode, hs, hcn⟩,
      ⟨strToLower (String.mk code), hcn, ?_, h4.2⟩, h5⟩
    intro he
    rw [he] at h4
    simp at h4
  · rintro ⟨hv1, hv2, ⟨ver, code, hver, hcode, hs, hcn⟩, ⟨lc, hlc, hlcne, hlclow⟩, hv5⟩
    have hx := nodeImageName_extract hver hcode hs
    have hlc' : lc = strToLower (String.mk code) := by
      rw [hcn] at hlc
      exact (Option.some.injEq _ _ ▸ hlc).symm
    simp only [nodeIsValidRegularVersion, Bool.and_eq_true]
    refine ⟨⟨⟨⟨⟨matchesVersionRegex_iff.mpr hv1, hv2⟩,
      matchesNodeImageNameRegex_iff.mpr ⟨ver, code, hver, hcode, hs⟩⟩, ?_⟩, hv5⟩, ?_⟩
    · rw [hlc]
      simp only [Option.getD_some, matchesLowerRegex, Bool.and_eq_true,
        Bool.not_eq_true', List.all_eq_true]
      refine ⟨?_, hlclow⟩
      cases hl : lc.toList with
      | nil => exact absurd hl hlcne
      | cons x xs => rfl
    · rw [hx, hcn]
      simp

/-- Witness for C7: the characterisation applied to a concrete valid entry,
discharging the shape conditions explicitly. -/
theorem node_regular_validation_characterised_witness :
    nodeIsValidRegularVersion
      ⟨"18.17.1", "18", "Node 18.17.1 LTS (Hydrogen)", some "hydrogen", .bool false⟩ =
      true := by
  apply (node_regular_validation_characterised _).mpr
  refine ⟨⟨['1', '8'], ['1', '7'], ['1'], by decide, by decide, by decide, by decide⟩,
    by decide,
    ⟨['1', '8', '.', '1', '7', '.', '1'],
     ['H', 'y', 'd', 'r', 'o', 'g', 'e', 'n'],
     ⟨['1', '8'], ['1', '7'], ['1'], by decide, by decide, by decide, by decide⟩,
     ⟨'H', ['y', 'd', 'r', 'o', 'g', 'e', 'n'], by decide, by decide, by decide, by decide⟩,
     by decide, by decide⟩,
    ⟨"hydrogen", by decide, by decide, by decide⟩,
    by decide⟩

/-- C1: for every version string, `getVersion` first cleans it (erroring
`Invalid version` when it does not normalise), then errors `not a valid
Node.js LTS version` unless the cleaned version equals the cleaned version
of an LTS-designated record; a successful query returns the formatted entry
for the matched record, with `is-latest` true exactly when the queried
version is the maximum of the full LTS set. -/
theorem getVersion_characterised (versionData : List NodeVersion) (version : String)
    (hall : ∀ v ∈ getLtsVersions versionData, (parseSemver v.version).isSome = true) :
    (parseSemver version = none →
      getVersion versionData version = .error (.invalidVersion version)) ∧
    (∀ cv, parseSemver version = some cv →
      (∀ lv ∈ getLtsVersions versionData, parseSemver lv.version ≠ some cv) →
      getVersion versionData version = .error (.notValidLts version)) ∧
    (∀ r, getVersion versionData version = .ok r →
      ∃ cv lv cn, parseSemver version = some cv ∧
        lv ∈ getLtsVersions versionData ∧ parseSemver lv.version = some cv ∧
        lv.lts = some cn ∧
        r.version = cv.render ∧
        r.imageVersion = toString cv.major ∧
        r.imageName = "Node " ++ cv.render ++ " LTS (" ++ cn ++ ")" ∧
        r.imageCodeName = some (strToLower cn) ∧
        (r.isLatest = JsBool.bool true ↔
          ∀ w ∈ getLtsVersions versionData, ∀ sw,
            parseSemver w.version = some sw → svLeB sw cv = true)) := by
  refine ⟨?_, ?_, ?_⟩
  · intro hnone
    unfold getVersion
    rw [hnone]
  · intro cv hcv hno
    unfold getVersion
    rw [hcv]
    dsimp only
    rw [findLtsVersion_none hall hno]
  · intro r hok
    unfold getVersion at hok
    cases hcv : parseSemver version with
    | none =>
      rw [hcv] at hok
      exact absurd hok (by simp)
    | some cv =>
      rw [hcv] at hok
      dsimp only at hok
      cases hfind : findLtsVersion cv (getLtsVersions versionData) with
      | error e =>
        rw [hfind] at hok
        exact absurd hok (by simp)
      | ok o =>
        cases o with
        | none =>
          rw [hfind] at hok
          exact absurd hok (by simp)
        | some lv =>
          rw [hfind] at hok
          dsimp only at hok
          obtain ⟨hlvmem, hlvparse⟩ := findLtsVersion_some hfind
          have hallb : ((getLtsVersions versionData).all
              fun v => (parseSemver v.version).isSome) = true :=
            List.all_eq_true.mpr hall
          rw [if_pos hallb] at hok
          cases hlast : (List.insertionSort VerLe
              ((getLtsVersions versionData).map (·.version))).getLast? with
          | none =>
            rw [hlast] at hok
            exact absurd hok (by simp)
          | some latest =>
            rw [hlast] at hok
            dsimp only at hok
            cases hpl : parseSemver latest with
            | none =>
              rw [hpl] at hok
              exact absurd hok (by simp)
            | some latestSv =>
              rw [hpl] at hok
              cases hcn : lv.lts with
              | none =>
                rw [hcn] at hok
                exact absurd hok (by simp)
              | some cn =>
                rw [hcn] at hok
                dsimp only at hok
                by_cases hvalid : nodeIsValidRegularVersion
                    { version := cv.render, imageVersion := toString cv.major,
                      imageName := "Node " ++ cv.render ++ " LTS (" ++ cn ++ ")",
                      imageCodeName := some (strToLower cn),
                      isLatest := .bool (cv == latestSv) } = true
                · rw [if_pos hvalid] at hok
                  simp only [Except.ok.injEq] at hok
                  refine ⟨cv, lv, cn, rfl, hlvmem, hlvparse, hcn, ?_, ?_, ?_, ?_, ?_⟩ <;>
                    rw [← hok]
                  have hsorted := List.sorted_insertionSort VerLe
                    ((getLtsVersions versionData).map (·.version))
                  constructor
                  · intro hb hw
                    intro hwmem sw hsw
                    simp only [JsBool.bool.injEq] at hb
                    have hcveq : cv = latestSv := eq_of_beq hb
                    have hmem : hw.version ∈ List.insertionSort VerLe
                        ((getLtsVersions versionData).map (·.version)) :=
                      (List.mem_insertionSort _).mpr (List.mem_map_of_mem _ hwmem)
                    have hle : VerLe hw.version latest :=
                      getLast_ge_of_pairwise hsorted verLe_refl hlast hmem
                    rw [hcveq]
                    exact (verLe_iff_svLeB hsw hpl).mp hle
                  · intro hmax
                    have hlm : latest ∈ (getLtsVersions versionData).map (·.version) :=
                      (List.mem_insertionSort _).mp (List.mem_of_mem_getLast? hlast)
                    obtain ⟨w0, hw0mem, hw0eq⟩ := List.mem_map.mp hlm
                    have h1 : svLeB latestSv cv = true :=
                      hmax w0 hw0mem latestSv (by rw [hw0eq, hpl])
                    have hmem : lv.version ∈ List.insertionSort VerLe
                        ((getLtsVersions versionData).map (·.version)) :=
                      (List.mem_insertionSort _).mpr (List.mem_map_of_mem _ hlvmem)
                    have hle : VerLe lv.version latest :=
                      getLast_ge_of_pairwise hsorted verLe_refl hlast hmem
                    have h2 : svLeB cv latestSv = true :=
                      (verLe_iff_svLeB hlvparse hpl).mp hle
                    have hcveq : cv = latestSv := svLeB_antisymm h2 h1
                    simp [hcveq]
                · rw [if_neg hvalid] at hok
                  exact absurd hok (by simp)

/-- Witness for C1: against a universe in which `v16.0.0` is not
LTS-designated, the single-version query for `16.0.0` fails with the
`not a valid Node.js LTS version` error. -/
theorem getVersion_characterised_witness :
    getVersion [⟨"v16.0.0", none, ""⟩, ⟨"v18.17.1", some "Hydrogen", ""⟩,
      ⟨"v20.10.0", some "Iron", ""⟩] "16.0.0" =
      .error (.notValidLts "16.0.0") :=
  (getVersion_characterised _ "16.0.0" (by decide)).2.1 ⟨16, 0, 0⟩ (by rfl) (by decide)

/-- C2: the eligible-version result contains at most one entry per major
(pairwise distinct majors, hence no two regular entries of the formatted
output share an `image-version`), is sorted ascending by full version, and
each member is exactly the left-to-right pick of `bestByMajor` — the rule
under which a later record overwrites the stored one only when its version
is strictly greater (ties keep the earlier record) — and therefore
dominates every same-major record of the merged inputs. -/
theorem eligible_versions_merge_characterised (activeLts newerEol : List NodeVersion) :
    ((getEligibleVersions activeLts newerEol).Pairwise fun x y =>
      nodeVersionLeB x y = true ∧
      ∀ sx sy, parseSemver x.version = some sx → parseSemver y.version = some sy →
        sx.major ≠ sy.major) ∧
    (∀ x, x ∈ getEligibleVersions activeLts newerEol ↔
      ∃ m sv, bestByMajor m (getLatestVersionsByMajor activeLts ++ newerEol) none =
        some (sv, x)) ∧
    (∀ x sx, x ∈ getEligibleVersions activeLts newerEol →
      parseSemver x.version = some sx →
      ∀ w sw, w ∈ getLatestVersionsByMajor activeLts ++ newerEol →
        parseSemver w.version = some sw → sw.major = sx.major →
        svLeB sw sx = true) := by
  have hunf : getEligibleVersions activeLts newerEol =
      List.insertionSort NodeLe
        (((getLatestVersionsByMajor activeLts ++ newerEol).foldl latestByMajorStep []).map
          fun e => e.2.2) := rfl
  set inputs := getLatestVersionsByMajor activeLts ++ newerEol with hin
  set merged := ((inputs.foldl latestByMajorStep []).map fun e => e.2.2) with hmg
  refine ⟨?_, ?_, ?_⟩
  · rw [hunf]
    have hsorted : (List.insertionSort NodeLe merged).Pairwise NodeLe :=
      List.sorted_insertionSort NodeLe merged
    have hmaj := merged_majors_distinct inputs
    have hsymm : ∀ {x y : NodeVersion},
        (∀ sx sy, parseSemver x.version = some sx → parseSemver y.version = some sy →
          sx.major ≠ sy.major) →
        ∀ sy sx, parseSemver y.version = some sy → parseSemver x.version = some sx →
          sy.major ≠ sx.major := fun h sy sx hsy hsx => (h sx sy hsx hsy).symm
    have hmaj' := ((List.perm_insertionSort NodeLe merged).pairwise_iff hsymm).mpr hmaj
    exact hsorted.and hmaj'
  · intro x
    rw [hunf, List.mem_insertionSort]
    exact mem_merged_iff inputs x
  · intro x sx hx hsx w sw hw hsw hmaj
    rw [hunf, List.mem_insertionSort] at hx
    obtain ⟨m, sv, hbest⟩ := (mem_merged_iff inputs x).mp hx
    have hget : mapGet (inputs.foldl latestByMajorStep []) m = some (sv, x) := by
      rw [foldl_latestByMajorStep_get]
      exact hbest
    have hwf := wfMap_foldl inputs [] wfMap_nil
    obtain ⟨hpx, hmx⟩ := hwf.1 _ (mem_of_mapGet hget)
    have hsv : sx = sv := by
      rw [hsx] at hpx
      injection hpx
    have hswm : sw.major = m := by
      rw [hmaj, hsv]
      exact hmx
    have hdom := (bestByMajor_max m inputs none hbest).1 w hw sw hsw hswm
    rw [hsv]
    exact hdom

/-- Witness for C2: the record `v18.17.1` belongs to the eligible set merged
from two active LTS lines, being the pick of `bestByMajor` for major 18. -/
theorem eligible_versions_merge_characterised_witness :
    (⟨"v18.17.1", some "Hydrogen", ""⟩ : NodeVersion) ∈
      getEligibleVersions
        [⟨"v18.17.1", some "Hydrogen", ""⟩, ⟨"v20.10.0", some "Iron", ""⟩] [] :=
  ((eligible_versions_merge_characterised _ _).2.1 _).mpr ⟨18, ⟨18, 17, 1⟩, by rfl⟩

/-- C3: `getNewerEolVersions` never errors when the published tags parse,
and its result contains a record exactly when some published tag's major is
not currently active-LTS and that record is the universe's pick (the
highest version of that major line) with version strictly greater than the
published tag; a tag whose major has no matching universe record
contributes nothing. -/
theorem newer_eol_versions_characterised (allVersions activeLtsVersions : List NodeVersion)
    (imageVersions : List WorkflowVersion)
    (htags : ∀ t ∈ regularEntries imageVersions, (parseSemver t.version).isSome = true) :
    ∃ res, getNewerEolVersions allVersions activeLtsVersions imageVersions = .ok res ∧
      ∀ cand, cand ∈ res ↔
        ∃ t ∈ regularEntries imageVersions, ∃ tsv,
          parseSemver t.version = some tsv ∧
          (getMajorVersions activeLtsVersions).contains tsv.major = false ∧
          ∃ csv, bestByMajor tsv.major allVersions none = some (csv, cand) ∧
            svLeB csv tsv = false := by
  obtain ⟨res, hres, hchar⟩ := newerEolLoop_char allVersions
    (getMajorVersions activeLtsVersions) (regularEntries imageVersions) htags
  refine ⟨res, hres, ?_⟩
  intro cand
  rw [hchar cand]
  constructor
  · rintro ⟨t, ht, tsv, h1, h2⟩
    refine ⟨t, ht, tsv, h1, ?_⟩
    unfold newerEolPick at h2
    by_cases hc : (getMajorVersions activeLtsVersions).contains tsv.major = true
    · rw [if_pos hc] at h2
      cases h2
    · rw [if_neg hc] at h2
      refine ⟨Bool.not_eq_true _ ▸ hc, ?_⟩
      cases hbest : bestByMajor tsv.major allVersions none with
      | none =>
        rw [hbest] at h2
        cases h2
      | some p =>
        obtain ⟨csv, c⟩ := p
        rw [hbest] at h2
        dsimp only at h2
        by_cases hle : svLeB csv tsv = true
        · rw [if_pos hle] at h2
          cases h2
        · rw [if_neg hle] at h2
          injection h2 with h2'
          exact ⟨csv, by rw [← h2'], Bool.not_eq_true _ ▸ hle⟩
  · rintro ⟨t, ht, tsv, h1, hc, csv, hbest, hlt⟩
    refine ⟨t, ht, tsv, h1, ?_⟩
    unfold newerEolPick
    rw [if_neg (by rw [hc]; simp), hbest]
    dsimp only
    rw [if_neg (by rw [hlt]; simp)]

/-- Witness for C3: with line 18 inactive and tag `18.17.1` published, a
universe whose newest 18-line record is `18.17.3` contributes it, while a
universe whose newest is `18.17.0` contributes nothing. -/
theorem newer_eol_versions_characterised_witness :
    (∃ res, getNewerEolVersions
        [⟨"v18.17.1", some "Hydrogen", ""⟩, ⟨"v18.17.3", some "Hydrogen", ""⟩,
         ⟨"v20.10.0", some "Iron", ""⟩]
        [⟨"v20.10.0", some "Iron", ""⟩]
        [.regular ⟨"18.17.1", "18", "Node 18.17.1 LTS (Hydrogen)", some "hydrogen",
          .bool false⟩] = .ok res ∧
      (⟨"v18.17.3", some "Hydrogen", ""⟩ : NodeVersion) ∈ res) ∧
    (∃ res, getNewerEolVersions
        [⟨"v18.17.0", some "Hydrogen", ""⟩, ⟨"v20.10.0", some "Iron", ""⟩]
        [⟨"v20.10.0", some "Iron", ""⟩]
        [.regular ⟨"18.17.1", "18", "Node 18.17.1 LTS (Hydrogen)", some "hydrogen",
          .bool false⟩] = .ok res ∧
      (⟨"v18.17.0", some "Hydrogen", ""⟩ : NodeVersion) ∉ res) := by
  constructor
  · obtain ⟨res, hres, hchar⟩ := newer_eol_versions_characterised
      [⟨"v18.17.1", some "Hydrogen", ""⟩, ⟨"v18.17.3", some "Hydrogen", ""⟩,
       ⟨"v20.10.0", some "Iron", ""⟩]
      [⟨"v20.10.0", some "Iron", ""⟩]
      [.regular ⟨"18.17.1", "18", "Node 18.17.1 LTS (Hydrogen)", some "hydrogen",
        .bool false⟩] (by decide)
    refine ⟨res, hres, (hchar _).mpr ?_⟩
    exact ⟨⟨"18.17.1", "18", "Node 18.17.1 LTS (Hydrogen)", some "hydrogen", .bool false⟩,
      by decide, ⟨18, 17, 1⟩, by rfl, by rfl, ⟨18, 17, 3⟩, by rfl, by rfl⟩
  · obtain ⟨res, hres, hchar⟩ := newer_eol_versions_characterised
      [⟨"v18.17.0", some "Hydrogen", ""⟩, ⟨"v20.10.0", some "Iron", ""⟩]
      [⟨"v20.10.0", some "Iron", ""⟩]
      [.regular ⟨"18.17.1", "18", "Node 18.17.1 LTS (Hydrogen)", some "hydrogen",
        .bool false⟩] (by decide)
    refine ⟨res, hres, fun hmem => ?_⟩
    obtain ⟨t, ht, tsv, h1, hc, csv, hbest, hlt⟩ := (hchar _).mp hmem
    have ht' : t = ⟨"18.17.1", "18", "Node 18.17.1 LTS (Hydrogen)", some "hydrogen",
        .bool false⟩ := by
      rcases List.mem_singleton.mp ht with rfl
      rfl
    rw [ht'] at h1
    have htsv : tsv = ⟨18, 17, 1⟩ := by
      rw [show parseSemver "18.17.1" = some ⟨18, 17, 1⟩ from rfl] at h1
      injection h1 with h1'
      exact h1'.symm
    rw [htsv] at hbest
    rw [show bestByMajor (18 : Nat)
        [⟨"v18.17.0", some "Hydrogen", ""⟩, ⟨"v20.10.0", some "Iron", ""⟩] none =
        some (⟨18, 17, 0⟩, ⟨"v18.17.0", some "Hydrogen", ""⟩) from rfl] at hbest
    injection hbest with hbest'
    have hcsv : csv = ⟨18, 17, 0⟩ := by
      have := congrArg Prod.fst hbest'
      exact this.symm
    rw [hcsv, htsv] at hlt
    exact absurd hlt (by decide)

/-- C9: the validator's last-regular-is-latest check inspects only the final
regular entry — this list has `is-latest: true` on a non-last regular entry
(`18.17.1`) in addition to the last one, and `validateVersions` still
completes without a validation error. -/
theorem validator_ignores_non_last_is_latest_flag :
    validateVersions nodeIsValidRegularVersion
      [.regular ⟨"18.17.1", "18", "Node 18.17.1 LTS (Hydrogen)", some "hydrogen", .bool true⟩,
       .regular ⟨"20.10.0", "20", "Node 20.10.0 LTS (Iron)", some "iron", .bool true⟩,
       .latest latestVersionObject] = .ok () := by
  rfl

end DockerImages
